import Mathlib

/-!
Verification of the Message data model of `langfun/core/message.py`.

The embedding models the `Message` class (text, sender, metadata, tags,
source back-link), its unified path-based `get`/`set` interface, modality
lookup and chunking/fusion, source-chain tracing (`root`, `trace`, `last`),
tag handling and the update-scope tracker, as shallow Lean definitions.

Python strings are modelled as `String` (with `List Char` used for the
character-level scanning done by `chunk`), Python `dict`s as ordered
association lists, and fallible operations as `Except`.

The repository depends on two collaborators whose sources are not part of
the excerpt: the `pyglove` structural library (`pg.Dict.rebind`,
`pg.Dict.sym_get`, `pg.KeyPath`, `pg.Ref`, `pg.MISSING_VALUE`,
`pg.maybe_ref`, change notification) and `langfun.core.modality`
(`Modality.REF_START`, `Modality.REF_END`, `Modality.text_marker`).  Those
parts are modelled from the spec, and each such definition carries a doc
comment saying so.
-/

set_option linter.unusedVariables false

namespace Langfun

/-- Modelled from the spec: a modality object of `langfun.core.modality`
(an opaque non-text payload).  The `owned` flag records whether the object
is already owned by another symbolic object, which is what
`pg.maybe_ref` inspects when `from_chunks` stores the object. -/
structure Modality where
  id : Nat
  owned : Bool
  deriving DecidableEq, Repr

/-- Python values stored in message metadata: the `None` constant, the
`pg.MISSING_VALUE` deletion sentinel, strings, integers, modality objects,
`pg.Ref` wrappers, ordered dictionaries and lists. -/
inductive PValue where
  | none
  | missing
  | str (s : String)
  | int (n : Int)
  | modality (md : Modality)
  | ref (v : PValue)
  | dict (entries : List (String × PValue))
  | list (vs : List PValue)

/-- Python truth test used by `rebind`: is this value the
`pg.MISSING_VALUE` sentinel? -/
def PValue.isMissing : PValue → Bool
  | .missing => true
  | _ => false

/-- Test for the `pg.Ref` wrapper, used by `Message.get` to decide whether
to dereference. -/
def PValue.isRef : PValue → Bool
  | .ref _ => true
  | _ => false

/-- Modelled from the spec: dereferencing of a `pg.Ref` wrapper
(`v.value if isinstance(v, pg.Ref) else v` in `Message.get`). -/
def pderef : PValue → PValue
  | .ref v => v
  | v => v

/-- Modelled from the spec: `pg.maybe_ref` stores a non-owning reference
when the object is already owned elsewhere, and the object itself
otherwise. -/
def maybe_ref (md : Modality) : PValue :=
  if md.owned then .ref (.modality md) else .modality md

/-- Single step of a `pg.KeyPath`: a dictionary field name or a list
index. -/
inductive Key where
  | key (s : String)
  | idx (n : Nat)
  deriving DecidableEq, Repr

/-- Modelled from the spec: a `pg.KeyPath` is a parsed dotted/indexed path,
a sequence of field-name / index steps.  The empty path is the root path
(the parse of the empty string). -/
abbrev KeyPath := List Key

/-- Lookup of a key in an ordered dictionary (first match). -/
def entriesGet : List (String × PValue) → String → Option PValue
  | [], _ => Option.none
  | (k, v) :: rest, s => if k = s then some v else entriesGet rest s

/-- Setting a key in an ordered dictionary: replaces the first occurrence
in place, or appends a fresh entry (Python dict insertion order). -/
def entriesSet : List (String × PValue) → String → PValue → List (String × PValue)
  | [], s, v => [(s, v)]
  | (k, w) :: rest, s, v => if k = s then (s, v) :: rest else (k, w) :: entriesSet rest s v

/-- Deleting a key from an ordered dictionary (no-op when absent).  Keys
of a Python dict are unique; on such lists removing every occurrence
coincides with removing the entry. -/
def entriesDel : List (String × PValue) → String → List (String × PValue)
  | [], _ => []
  | (k, w) :: rest, s => if k = s then entriesDel rest s else (k, w) :: entriesDel rest s

/-- Modelled from the spec: `pg.Dict.sym_get` / structural read along a
parsed key path, returning `none` when the path does not resolve. -/
def psymGet : KeyPath → PValue → Option PValue
  | [], v => some v
  | Key.key s :: rest, .dict es => (entriesGet es s).bind (fun c => psymGet rest c)
  | Key.idx n :: rest, .list vs => vs[n]?.bind (fun c => psymGet rest c)
  | _, _ => Option.none

/-- Modelled from the spec: `pg.Dict.rebind` with a single path/value pair:
a structural update at the given parsed path, creating intermediate
dictionaries as needed; assigning the `MISSING` sentinel at a dictionary
key deletes that entry; the root path cannot be rebound; descending
through a non-container value or out of a list's range is an error.
Deleting a list element is outside this model and reported as an error. -/
def pupdate : KeyPath → PValue → PValue → Except String PValue
  | [], _, _ => .error "the root path cannot be rebound"
  | k :: rest, base, v =>
    match k, base with
    | Key.key s, PValue.dict es =>
      match rest with
      | [] =>
        if v.isMissing then .ok (.dict (entriesDel es s)) else .ok (.dict (entriesSet es s v))
      | _ :: _ =>
        match pupdate rest ((entriesGet es s).getD (PValue.dict [])) v with
        | .ok c => .ok (.dict (entriesSet es s c))
        | .error e => .error e
    | Key.idx n, PValue.list vs =>
      match rest with
      | [] =>
        if v.isMissing then .error "deleting a list element is not modelled"
        else if n < vs.length then .ok (.list (vs.set n v))
        else .error "list index out of range"
      | _ :: _ =>
        match vs[n]? with
        | some c =>
          match pupdate rest c v with
          | .ok c2 => .ok (.list (vs.set n c2))
          | .error e => .error e
        | Option.none => .error "list index out of range"
    | _, _ => .error "cannot update through a non-container value"

/-- Role of a message: the base `Message` class or one of the four role
variants (`UserMessage`, `AIMessage`, `SystemMessage`, `MemoryRecord`). -/
inductive MsgClass where
  | base
  | user
  | ai
  | system
  | memory
  deriving DecidableEq, Repr

/-- The `Message` record of `message.py`: natural-language `text`, a
`sender`, structured `metadata`, a list of `tags`, and the `source`
back-link that forms the finite acyclic message chain.  The `cls` field
records which (sub)class the object was constructed from. -/
inductive Message where
  | mk (cls : MsgClass) (text : String) (sender : String) (metadata : PValue)
      (tags : List String) (source : Option Message)

def Message.cls : Message → MsgClass
  | .mk c _ _ _ _ _ => c

def Message.text : Message → String
  | .mk _ t _ _ _ _ => t

def Message.sender : Message → String
  | .mk _ _ s _ _ _ => s

def Message.metadata : Message → PValue
  | .mk _ _ _ md _ _ => md

def Message.tags : Message → List String
  | .mk _ _ _ _ tg _ => tg

def Message.source : Message → Option Message
  | .mk _ _ _ _ _ src => src

def Message.withText : Message → String → Message
  | .mk c _ s md tg src, t => .mk c t s md tg src

def Message.withMetadata : Message → PValue → Message
  | .mk c t s _ tg src, md => .mk c t s md tg src

def Message.withTags : Message → List String → Message
  | .mk c t s md _ src, tg => .mk c t s md tg src

def Message.withSource : Message → Option Message → Message
  | .mk c t s md tg _, src => .mk c t s md tg src

/-- Conversion of a plain string name to a `pg.KeyPath`: the empty string
parses to the root path (it is falsy in `if not key_path`), any other
plain name is a single field step. -/
def strKey (s : String) : KeyPath :=
  if s = "" then [] else [Key.key s]

/-- Result of `Message.get`: either the message itself (root path) or a
metadata/text value. -/
inductive GetResult where
  | msg (m : Message)
  | val (v : PValue)

/-- Embedding of `Message.get` (message.py lines 180-199): the root path
returns the message itself, the path 'text' returns the text, any other
path is a structural read inside `metadata` falling back to `default`,
with a final `pg.Ref` dereference. -/
def Message.get (m : Message) (p : KeyPath) (default : PValue) : GetResult :=
  if p = [] then .msg m
  else if p = [Key.key "text"] then .val (.str m.text)
  else .val (pderef ((psymGet p m.metadata).getD default))

/-- Embedding of `Message.set` (message.py lines 156-178): the path 'text'
rebinds the text field on the message itself (requiring a string value for
the typed field); every other path — including the root path — is handed
to `metadata.rebind`. -/
def Message.set (m : Message) (p : KeyPath) (v : PValue) : Except String Message :=
  if p = [Key.key "text"] then
    match v with
    | .str s => .ok (m.withText s)
    | _ => .error "field text requires a string value"
  else
    match pupdate p m.metadata v with
    | .ok md => .ok (m.withMetadata md)
    | .error e => .error e

/-- Embedding of `Message.get_modality` (message.py lines 279-298): looks
`var_name` up in the current message; a modality object is returned; on a
`None` result the lookup recurses into `source` whenever a source exists —
the `from_message_chain` argument is accepted but never consulted, exactly
as in the source; any other value yields `default`. -/
def Message.get_modality : Message → String → Option Modality → Bool → Option Modality
  | .mk c t s md tg src, var_name, default, from_message_chain =>
    match (Message.mk c t s md tg src).get (strKey var_name) PValue.none with
    | .val (.modality m0) => some m0
    | .val .none =>
      match src with
      | some parent => parent.get_modality var_name default from_message_chain
      | Option.none => default
    | _ => default

/-- Embedding of the `Message.root` property (message.py lines 408-414):
follows `source` links until a message without a source is reached. -/
def Message.root : Message → Message
  | .mk c t s md tg Option.none => .mk c t s md tg Option.none
  | .mk _ _ _ _ _ (some parent) => parent.root

/-- Backward collection pass of `Message.trace`: walks from `self` through
`source` links, collecting the messages that carry `tag` (all messages
when `tag` is `none`). -/
def Message.traceUp : Message → Option String → List Message
  | m@(.mk _ _ _ _ tg src), tag =>
    let here := match tag with
      | Option.none => [m]
      | some t => if t ∈ tg then [m] else []
    here ++ (match src with
      | some parent => parent.traceUp tag
      | Option.none => [])

/-- Embedding of `Message.trace` (message.py lines 416-425): the backward
traversal, reversed into chronological (oldest-first) order. -/
def Message.trace (m : Message) (tag : Option String) : List Message :=
  (m.traceUp tag).reverse

/-- Embedding of `Message.last` (message.py lines 442-449): the first
message encountered walking backward that carries `tag`. -/
def Message.last : Message → String → Option Message
  | .mk c t s md tg src, tag =>
    if tag ∈ tg then some (.mk c t s md tg src)
    else match src with
      | some parent => parent.last tag
      | Option.none => Option.none

/-- Field-update record accumulated by change tracking (`pg.FieldUpdate`):
old and new value of the rebound field. -/
structure FieldUpdate where
  old_value : PValue
  new_value : PValue

/-- Per-message volatile tracking state: the `_updates` mapping (ordered,
keyed by field path) and the `_errors` list of the current update scope. -/
structure TrackState where
  updates : List (KeyPath × FieldUpdate)
  errors : List String

/-- Lookup in the updates mapping. -/
def kpLookup : List (KeyPath × FieldUpdate) → KeyPath → Option FieldUpdate
  | [], _ => Option.none
  | (k, v) :: rest, p => if k = p then some v else kpLookup rest p

/-- Single-key Python `dict.update` step: later entries win, insertion
order of fresh keys is preserved. -/
def kpInsert (d : List (KeyPath × FieldUpdate)) (p : KeyPath) (u : FieldUpdate) :
    List (KeyPath × FieldUpdate) :=
  match d with
  | [] => [(p, u)]
  | (k, v) :: rest => if k = p then (p, u) :: rest else (k, v) :: kpInsert rest p u

/-- Python `dict.update`: merge the second mapping into the first, later
keys winning. -/
def kpUpdate (d new : List (KeyPath × FieldUpdate)) : List (KeyPath × FieldUpdate) :=
  List.foldl (fun acc kv => kpInsert acc kv.fst kv.snd) d new

/-- Embedding of `Message._on_change` (message.py lines 227-229): merge the
incoming field updates into the current scope's updates mapping. -/
def recordChange (st : TrackState) (fus : List (KeyPath × FieldUpdate)) : TrackState :=
  { st with updates := kpUpdate st.updates fus }

/-- Recording of an error into the current update scope. -/
def recordError (st : TrackState) (e : String) : TrackState :=
  { st with errors := st.errors ++ [e] }

/-- Embedding of `Message.update_scope` (message.py lines 251-265): stash
the current collections, run the body on fresh empty ones, and — in the
`finally` block, hence on every exit path including a raised error —
merge the scope's updates into the stashed updates (later wins) and append
its errors to the stashed errors, restoring them as current.  The body's
`Except` outcome is propagated unchanged. -/
def TrackState.update_scope (st : TrackState)
    (body : TrackState → TrackState × Except String Unit) :
    TrackState × Except String Unit :=
  let stashedUpdates := st.updates
  let stashedErrors := st.errors
  let (inner, r) := body (TrackState.mk [] [])
  (TrackState.mk (kpUpdate stashedUpdates inner.updates) (stashedErrors ++ inner.errors), r)

/-- Tag append with optional change notification: the underlying list
mutation, recording a field update on the tags field only when
notification is on. -/
def Message.appendTag (m : Message) (st : TrackState) (t : String) (notify : Bool) :
    Message × TrackState :=
  let m2 := m.withTags (m.tags ++ [t])
  let st2 :=
    if notify then
      recordChange st [([Key.key "tags"],
        FieldUpdate.mk (.list (m.tags.map PValue.str)) (.list (m2.tags.map PValue.str)))]
    else st
  (m2, st2)

/-- Embedding of `Message.tag` (message.py lines 389-392): append the tag
only when it is not already present, inside `pg.notify_on_change(False)`,
so the mutation bypasses change notification. -/
def Message.tag (m : Message) (st : TrackState) (t : String) : Message × TrackState :=
  if t ∈ m.tags then (m, st) else m.appendTag st t false

/-- Value compared against a message by `Message.__eq__`: a plain string
or another message. -/
inductive PyVal where
  | str (s : String)
  | msg (m : Message)

/-- Python `isinstance(other, self.__class__)` over the closed class
hierarchy of message.py: everything is an instance of the base class, and
a role variant only of itself. -/
def isinstance_of (selfCls otherCls : MsgClass) : Bool :=
  if selfCls = MsgClass.base then true else decide (otherCls = selfCls)

/-- Embedding of `Message.__eq__` (message.py lines 473-480): equality
with a plain string compares text only; equality with an instance of
`self.__class__` compares text, sender and metadata; everything else is
unequal. -/
def Message.pyEq : Message → PyVal → Prop
  | m, .str s => m.text = s
  | m, .msg o =>
    isinstance_of m.cls o.cls = true ∧ m.text = o.text ∧ m.sender = o.sender
      ∧ m.metadata = o.metadata

/-- Embedding of `Message.__hash__` (message.py lines 482-483): hashing by
text alone. -/
def Message.pyHash (m : Message) : UInt64 :=
  hash m.text

/-- Constructor of `UserMessage` (default sender 'User'). -/
def UserMessage (text : String) (metadata : PValue) : Message :=
  .mk .user text "User" metadata [] Option.none

/-- Constructor of `AIMessage` (default sender 'AI'). -/
def AIMessage (text : String) (metadata : PValue) : Message :=
  .mk .ai text "AI" metadata [] Option.none

/-- Constructor of `SystemMessage` (default sender 'System'). -/
def SystemMessage (text : String) (metadata : PValue) : Message :=
  .mk .system text "System" metadata [] Option.none

/-- Constructor of `MemoryRecord` (default sender 'Memory'). -/
def MemoryRecord (text : String) (metadata : PValue) : Message :=
  .mk .memory text "Memory" metadata [] Option.none

/-!
Chunking and fusion.  `chunk` scans the text left-to-right for the
modality reference delimiters; `from_chunks` fuses a chunk list back into
a message.  The scanning is done over `List Char` with Python-style
integer indices.
-/

/-- Modelled from the spec: `Modality.REF_START`, the start delimiter of
an embedded modality reference (two opening braces). -/
def refStartL : List Char := ['\x7b', '\x7b']

/-- Modelled from the spec: `Modality.REF_END`, the end delimiter of an
embedded modality reference (two closing braces). -/
def refEndL : List Char := ['\x7d', '\x7d']

/-- Whitespace characters recognised by Python `str.strip()` (the subset
relevant to this model). -/
def isSpaceChar (c : Char) : Bool :=
  c = ' ' || c = '\n' || c = '\t' || c = '\r'

/-- Python `str.strip()`: drop leading and trailing whitespace. -/
def stripList (cs : List Char) : List Char :=
  ((cs.dropWhile isSpaceChar).reverse.dropWhile isSpaceChar).reverse

/-- Search for the first occurrence of `pat` in `rem`, reporting indices
offset by `i`. -/
def findSubAux : List Char → List Char → Nat → Option Nat
  | [], pat, i => if pat.isPrefixOf ([] : List Char) then some i else Option.none
  | c :: tl, pat, i =>
    if pat.isPrefixOf (c :: tl) then some i else findSubAux tl pat (i + 1)

/-- Python `text.find(pat, start)`: index of the first occurrence of `pat`
at or after `start` (`none` models the -1 result). -/
def findSub (text pat : List Char) (start : Nat) : Option Nat :=
  findSubAux (text.drop start) pat start

/-- Does `pat` occur anywhere in `l`? -/
def hasSub (l pat : List Char) : Bool :=
  (findSub l pat 0).isSome

/-- Python slice `text[a:b]`. -/
def listExtract (text : List Char) (a b : Nat) : List Char :=
  (text.drop a).take (b - a)

/-- Chunks produced by `Message.chunk` and consumed by
`Message.from_chunks`: plain text pieces or modality objects. -/
inductive Chunk where
  | text (s : String)
  | mod (md : Modality)
  deriving DecidableEq, Repr

/-- Helper `add_text_chunk` of `Message.chunk`: empty text pieces are
omitted. -/
def textChunk (cs : List Char) : List Chunk :=
  if cs = [] then [] else [Chunk.text (String.mk cs)]

/-- Embedding of the scanning loop of `Message.chunk` (message.py lines
318-335), with an explicit fuel argument bounding the number of loop
iterations.  State: `chunk_start` (start of the pending text piece),
`ref_end` (search start for the next start delimiter), accumulated
chunks.  A start delimiter without a matching end delimiter appends the
remaining text untrimmed and stops; no further start delimiter appends
the remaining text trimmed; a resolved reference appends the trimmed
preceding text and the modality object; an unresolved name leaves
`chunk_start` in place and continues after the end delimiter. -/
def chunkLoop (m : Message) (text : List Char) :
    Nat → Nat → Nat → List Chunk → List Chunk
  | 0, _, _, acc => acc
  | fuel + 1, chunk_start, ref_end, acc =>
    if chunk_start < text.length then
      match findSub text refStartL ref_end with
      | Option.none => acc ++ textChunk (stripList (text.drop chunk_start))
      | some ref_start =>
        let var_start := ref_start + 2
        match findSub text refEndL var_start with
        | Option.none => acc ++ textChunk (text.drop chunk_start)
        | some re =>
          let var_name := stripList (listExtract text var_start re)
          match m.get_modality (String.mk var_name) Option.none true with
          | some md =>
            chunkLoop m text fuel (re + 2) re
              ((acc ++ textChunk (stripList (listExtract text chunk_start ref_start)))
                ++ [Chunk.mod md])
          | Option.none => chunkLoop m text fuel chunk_start re acc
    else acc

/-- Embedding of `Message.chunk` (message.py lines 307-336).  The fuel
`text.length + 1` dominates the number of loop iterations, since each
iteration that continues moves `ref_end` forward by at least two. -/
def Message.chunk (m : Message) : List Chunk :=
  chunkLoop m m.text.data (m.text.data.length + 1) 0 0 []

/-- Decimal digit characters (the rendering used by Python string
formatting). -/
def digitChar : Nat → Char
  | 0 => '0'
  | 1 => '1'
  | 2 => '2'
  | 3 => '3'
  | 4 => '4'
  | 5 => '5'
  | 6 => '6'
  | 7 => '7'
  | 8 => '8'
  | _ => '9'

/-- Decimal rendering of a natural number (most significant digit first),
with fuel; fuel `n + 1` always suffices. -/
def natDigits : Nat → Nat → List Char
  | 0, _ => []
  | fuel + 1, n =>
    if n < 10 then [digitChar n]
    else natDigits fuel (n / 10) ++ [digitChar (n % 10)]

/-- Character list of the synthetic reference name `obj<i>` assigned by
`from_chunks`. -/
def objNameL (i : Nat) : List Char :=
  ['o', 'b', 'j'] ++ natDigits (i + 1) i

/-- The synthetic reference name `obj<i>` as a string. -/
def objName (i : Nat) : String :=
  String.mk (objNameL i)

/-- Modelled from the spec: `Modality.text_marker(var_name)`, the
delimited placeholder embedded in the fused text. -/
def markerL (i : Nat) : List Char :=
  refStartL ++ objNameL i ++ refEndL

/-- Fusion pass of `Message.from_chunks` (message.py lines 347-359):
concatenates the chunks with the separator between them, replacing each
modality object with the marker of a freshly assigned name `obj<i>` (in
chunk order) and recording the object under that name.  `first` tracks
whether a separator must be written before the next chunk; `ref_index` is
the running modality counter. -/
def fuseChunks : List Chunk → List Char → Nat → Bool → List Char × List (String × PValue)
  | [], _, _, _ => ([], [])
  | ck :: rest, sep, ref_index, first =>
    let pre := if first then [] else sep
    match ck with
    | .text s =>
      let (t, md) := fuseChunks rest sep ref_index false
      (pre ++ s.data ++ t, md)
    | .mod m0 =>
      let (t, md) := fuseChunks rest sep (ref_index + 1) false
      (pre ++ markerL ref_index ++ t, (objName ref_index, maybe_ref m0) :: md)

/-- Embedding of `Message.from_chunks` (message.py lines 338-360): the
fused text is stripped of leading/trailing whitespace, and the collected
objects become the metadata of a fresh message without a source.  The
base-class classmethod leaves the sender unresolved, modelled as the
empty string. -/
def Message.from_chunks (cs : List Chunk) (sep : List Char) : Message :=
  let (t, md) := fuseChunks cs sep 0 true
  Message.mk .base (String.mk (stripList t)) "" (.dict md) [] Option.none

/-- The default separator of `from_chunks` (a newline). -/
def sepNL : List Char := ['\n']

/-- Right-hand strip: drop trailing whitespace. -/
def stripRList (cs : List Char) : List Char :=
  (cs.reverse.dropWhile isSpaceChar).reverse

/-- Numeric value of a decimal digit character. -/
def dval (c : Char) : Nat := c.toNat - 48

/-- Value of a most-significant-first digit string (left inverse of
`natDigits`). -/
def valOf (cs : List Char) : Nat :=
  List.foldl (fun acc c => acc * 10 + dval c) 0 cs

/-- The modality objects of a chunk list, in order. -/
def modsOf : List Chunk → List Modality
  | [] => []
  | .text _ :: rest => modsOf rest
  | .mod m0 :: rest => m0 :: modsOf rest

/-- Whitespace-trim a text chunk; modality chunks are untouched. -/
def trimChunk : Chunk → Chunk
  | .text s => .text (String.mk (stripList s.data))
  | c => c

/-- Side conditions on a text chunk under which fusion and chunking are
mutually inverse: its trimmed content is non-empty and it holds no start
delimiter. -/
def chunkTextOk (s : String) : Bool :=
  !(stripList s.data).isEmpty && !hasSub s.data refStartL

/-- Side conditions on a chunk list under which fusion and chunking are
mutually inverse: no two adjacent text chunks, and every text chunk
satisfies `chunkTextOk`. -/
def chunksOk : List Chunk → Bool
  | [] => true
  | Chunk.text _ :: Chunk.text _ :: _ => false
  | Chunk.text s :: rest => chunkTextOk s && chunksOk rest
  | Chunk.mod _ :: rest => chunksOk rest

/-- Text payload contributed by one chunk during fusion (`k` is the next
modality index). -/
def chunkPayload : Chunk → Nat → List Char
  | .text s, _ => s.data
  | .mod _, k => markerL k

/-- Next modality index after one chunk. -/
def chunkBump : Chunk → Nat → Nat
  | .text _, k => k
  | .mod _, k => k + 1

/-- Fused text of a non-initial chunk-list tail: each chunk preceded by
the default separator. -/
def renderRest : List Chunk → Nat → List Char
  | [], _ => []
  | ck :: rest, k => sepNL ++ chunkPayload ck k ++ renderRest rest (chunkBump ck k)

/-- Fused text of a chunk-list tail whose head chunk is not preceded by a
separator (interior chunks still are). -/
def renderMods : List Chunk → Nat → List Char
  | [], _ => []
  | .mod _ :: rest, k => markerL k ++ renderRest rest (k + 1)
  | .text s :: rest, k => s.data ++ renderRest rest k

/-- The metadata entries produced when fusing a chunk list from modality
index `k`. -/
def mdList : List Chunk → Nat → List (String × PValue)
  | [], _ => []
  | .text _ :: rest, k => mdList rest k
  | .mod m0 :: rest, k => (objName k, maybe_ref m0) :: mdList rest (k + 1)

/-- Parent message of the C1 failing input: its metadata holds a modality
object under the key obj0. -/
def c1parent : Message :=
  .mk .base "p" "" (.dict [("obj0", PValue.modality (Modality.mk 7 false))]) [] Option.none

/-- Child message of the C1 failing input: empty metadata, source set to
the parent. -/
def c1child : Message :=
  .mk .base "c" "" (.dict []) [] (some c1parent)

/-- The nested-scope scenario from the spec: within an outer scope A a
field x is mutated, then an inner scope B mutates field y, records an
error e and exits on the error path; B's `finally` merge runs, then A's.
The three components returned are scope B's state captured before its
merge, the current state right after B is closed (A's view), and the
state after A itself is closed over the ambient state `st`. -/
def nestedScopeScenario (st : TrackState) (px py : KeyPath) (ux uy : FieldUpdate)
    (e : String) : TrackState × TrackState × TrackState :=
  let bodyB : TrackState → TrackState × Except String Unit := fun t0 =>
    (recordError (recordChange t0 [(py, uy)]) e, Except.error e)
  let capturedB := (bodyB (TrackState.mk [] [])).1
  let bodyA : TrackState → TrackState × Except String Unit := fun s0 =>
    (recordChange s0 [(px, ux)]).update_scope bodyB
  let afterB := (bodyA (TrackState.mk [] [])).1
  (capturedB, afterB, (st.update_scope bodyA).1)

/-!
Basic lemmas about the metadata tree operations.
-/

lemma pderef_of_not_ref (v : PValue) (h : v.isRef = false) : pderef v = v := by
  cases v <;> simp_all [PValue.isRef, pderef]

lemma entriesGet_set_self (es : List (String × PValue)) (k : String) (v : PValue) :
    entriesGet (entriesSet es k v) k = some v := by
  induction es with
  | nil => simp [entriesGet, entriesSet]
  | cons hd tl ih =>
    obtain ⟨k', w⟩ := hd
    by_cases h : k' = k <;> simp [entriesGet, entriesSet, h, ih]

lemma entriesGet_del_self (es : List (String × PValue)) (k : String) :
    entriesGet (entriesDel es k) k = Option.none := by
  induction es with
  | nil => simp [entriesGet, entriesDel]
  | cons hd tl ih =>
    obtain ⟨k', w⟩ := hd
    by_cases h : k' = k <;> simp [entriesGet, entriesDel, h, ih]

lemma entriesSet_self (es : List (String × PValue)) (k : String) (v : PValue)
    (h : entriesGet es k = some v) : entriesSet es k v = es := by
  induction es with
  | nil => simp [entriesGet] at h
  | cons hd tl ih =>
    obtain ⟨k', w⟩ := hd
    by_cases hk : k' = k
    · subst hk
      simp [entriesGet] at h
      simp [entriesSet, h]
    · simp [entriesGet, hk] at h
      simp [entriesSet, hk, ih h]

lemma list_set_self (vs : List PValue) (n : Nat) (v : PValue)
    (h : vs[n]? = some v) : vs.set n v = vs := by
  induction vs generalizing n with
  | nil => simp at h
  | cons hd tl ih =>
    cases n with
    | zero => simp at h; simp [List.set, h]
    | succ n2 => simp at h; simp [List.set, ih n2 h]

lemma pupdate_key_dict_last (s : String) (es : List (String × PValue)) (v : PValue) :
    pupdate [Key.key s] (PValue.dict es) v =
      (if v.isMissing then .ok (.dict (entriesDel es s))
       else .ok (.dict (entriesSet es s v))) := rfl

lemma pupdate_idx_list_last (n : Nat) (vs : List PValue) (v : PValue) :
    pupdate [Key.idx n] (PValue.list vs) v =
      (if v.isMissing then .error "deleting a list element is not modelled"
       else if n < vs.length then .ok (.list (vs.set n v))
       else .error "list index out of range") := rfl

lemma pupdate_key_dict_cons (s : String) (k2 : Key) (rest2 : KeyPath)
    (es : List (String × PValue)) (v : PValue) :
    pupdate (Key.key s :: k2 :: rest2) (PValue.dict es) v =
      (match pupdate (k2 :: rest2) ((entriesGet es s).getD (PValue.dict [])) v with
       | .ok c => .ok (.dict (entriesSet es s c))
       | .error e => .error e) := rfl

lemma pupdate_idx_list_cons (n : Nat) (k2 : Key) (rest2 : KeyPath)
    (vs : List PValue) (v : PValue) :
    pupdate (Key.idx n :: k2 :: rest2) (PValue.list vs) v =
      (match vs[n]? with
       | some c =>
         match pupdate (k2 :: rest2) c v with
         | .ok c2 => .ok (.list (vs.set n c2))
         | .error e => .error e
       | Option.none => .error "list index out of range") := rfl

/-- Structural update followed by structural read at the same path: a
non-missing value is read back, an assigned missing sentinel leaves the
path unresolved. -/
lemma pupdate_psymGet : ∀ (p : KeyPath) (base v base' : PValue),
    pupdate p base v = .ok base' →
    psymGet p base' = (if v.isMissing then Option.none else some v) := by
  intro p
  induction p with
  | nil => intro base v base' h; simp [pupdate] at h
  | cons k rest ih =>
    intro base v base' h
    cases rest with
    | nil =>
      cases k with
      | key s =>
        cases base
        case dict es =>
          rw [pupdate_key_dict_last] at h
          by_cases hm : v.isMissing
          · simp [hm] at h
            subst h
            simp [hm, psymGet, entriesGet_del_self]
          · simp [hm] at h
            subst h
            simp [hm, psymGet, entriesGet_set_self]
        all_goals simp [pupdate] at h
      | idx n =>
        cases base
        case list vs =>
          rw [pupdate_idx_list_last] at h
          by_cases hm : v.isMissing
          · simp [hm] at h
          · simp [hm] at h
            by_cases hn : n < vs.length
            · simp [hn] at h
              subst h
              simp [hm, psymGet, List.getElem?_set_eq_of_lt _ hn]
            · simp [hn] at h
        all_goals simp [pupdate] at h
    | cons k2 rest2 =>
      cases k with
      | key s =>
        cases base
        case dict es =>
          rw [pupdate_key_dict_cons] at h
          cases hrec : pupdate (k2 :: rest2) ((entriesGet es s).getD (PValue.dict [])) v with
          | error e => rw [hrec] at h; simp at h
          | ok c =>
            rw [hrec] at h
            simp at h
            subst h
            simp [psymGet, entriesGet_set_self]
            exact ih _ v c hrec
        all_goals simp [pupdate] at h
      | idx n =>
        cases base
        case list vs =>
          rw [pupdate_idx_list_cons] at h
          cases hget : vs[n]? with
          | none => rw [hget] at h; simp at h
          | some c =>
            rw [hget] at h
            simp only [] at h
            cases hrec : pupdate (k2 :: rest2) c v with
            | error e => rw [hrec] at h; simp at h
            | ok c2 =>
              rw [hrec] at h
              simp at h
              subst h
              have hn : n < vs.length := by
                by_contra hc
                rw [List.getElem?_eq_none (by omega)] at hget
                exact Option.noConfusion hget
              simp [psymGet, List.getElem?_set_eq_of_lt _ hn]
              exact ih _ v c2 hrec
        all_goals simp [pupdate] at h

/-- A structural update writing back the value already present succeeds
and leaves the tree unchanged (no-op rebind). -/
lemma pupdate_noop : ∀ (p : KeyPath) (base v : PValue), p ≠ [] →
    psymGet p base = some v → v.isMissing = false → pupdate p base v = .ok base := by
  intro p
  induction p with
  | nil => intro base v hne; exact absurd rfl hne
  | cons k rest ih =>
    intro base v hne hget hm
    cases rest with
    | nil =>
      cases k with
      | key s =>
        cases base <;> simp [psymGet] at hget
        rename_i es
        rw [pupdate_key_dict_last]
        simp [hm, entriesSet_self es s v hget]
      | idx n =>
        cases base <;> simp [psymGet] at hget
        rename_i vs
        have hn : n < vs.length := by
          by_contra hcon
          rw [List.getElem?_eq_none (by omega)] at hget
          exact Option.noConfusion hget
        rw [pupdate_idx_list_last]
        simp [hm, hn, list_set_self vs n v hget]
    | cons k2 rest2 =>
      cases k with
      | key s =>
        cases base <;> simp [psymGet] at hget
        rename_i es
        obtain ⟨c, hc, hrest⟩ := Option.bind_eq_some.mp hget
        have hrec := ih c v (by simp) hrest hm
        rw [pupdate_key_dict_cons, hc]
        simp [hrec, entriesSet_self es s c hc]
      | idx n =>
        cases base <;> simp [psymGet] at hget
        rename_i vs
        obtain ⟨c, hc, hrest⟩ := Option.bind_eq_some.mp hget
        have hrec := ih c v (by simp) hrest hm
        rw [pupdate_idx_list_cons, hc]
        simp [hrec, list_set_self vs n c hc]

/-- Elimination form of a successful non-text `Message.set`. -/
lemma set_ok_elim (m : Message) (p : KeyPath) (v : PValue) (m' : Message)
    (hp : p ≠ [Key.key "text"]) (h : m.set p v = .ok m') :
    pupdate p m.metadata v = .ok m'.metadata ∧ m'.text = m.text
      ∧ m'.sender = m.sender ∧ m'.tags = m.tags ∧ m'.cls = m.cls
      ∧ m'.source = m.source := by
  unfold Message.set at h
  split at h
  · exact absurd (by assumption) hp
  · cases hrec : pupdate p m.metadata v with
    | error e => rw [hrec] at h; simp at h
    | ok md =>
      rw [hrec] at h
      simp only [] at h
      simp at h
      subst h
      cases m with
      | mk c t s md0 tg src =>
        simp_all [Message.withMetadata, Message.metadata, Message.text, Message.sender,
          Message.tags, Message.cls, Message.source]

@[simp] lemma cls_mk (c t s md tg src) : (Message.mk c t s md tg src).cls = c := rfl
@[simp] lemma text_mk (c t s md tg src) : (Message.mk c t s md tg src).text = t := rfl
@[simp] lemma sender_mk (c t s md tg src) : (Message.mk c t s md tg src).sender = s := rfl
@[simp] lemma metadata_mk (c t s md tg src) : (Message.mk c t s md tg src).metadata = md := rfl
@[simp] lemma tags_mk (c t s md tg src) : (Message.mk c t s md tg src).tags = tg := rfl
@[simp] lemma source_mk (c t s md tg src) : (Message.mk c t s md tg src).source = src := rfl

@[simp] lemma withMetadata_metadata (m : Message) (x : PValue) :
    (m.withMetadata x).metadata = x := by cases m; rfl

@[simp] lemma withMetadata_text (m : Message) (x : PValue) :
    (m.withMetadata x).text = m.text := by cases m; rfl

@[simp] lemma withText_text (m : Message) (t : String) :
    (m.withText t).text = t := by cases m; rfl

@[simp] lemma withText_metadata (m : Message) (t : String) :
    (m.withText t).metadata = m.metadata := by cases m; rfl

lemma withMetadata_self (m : Message) : m.withMetadata m.metadata = m := by cases m; rfl

/-!
Claim C1: behaviour of `get_modality` with chain search disabled.
-/

/-- Claim C1 (code_bug evaluation): the spec and the method's own
docstring say that with chain search disabled the lookup is performed in
the current message only, returning the default; but the code never
consults `from_message_chain`, so the child resolves obj0 from its parent
even with the flag set to false, instead of returning the default
`None`. -/
theorem c1_get_modality_ignores_chain_flag :
    c1child.get_modality "obj0" Option.none false = some (Modality.mk 7 false)
      ∧ some (Modality.mk 7 false) ≠ (Option.none : Option Modality) := by
  exact ⟨rfl, by decide⟩

/-!
Claim C2: the special paths of `Message.set`.
-/

/-- Claim C2 (counterexample): the empty path — the parse of the string
path '' — is not special-cased by `set`; on a message with text "foo",
`set('', "bar")` does not replace the text with "bar" but is routed to a
metadata rebind of the root path, which fails. -/
theorem c2_set_counterexample :
    strKey "" = ([] : KeyPath)
      ∧ (Message.mk .base "foo" "" (.dict []) [] Option.none).set [] (.str "bar")
          = .error "the root path cannot be rebound" :=
  ⟨rfl, rfl⟩

/-- Claim C2 (amended): `set(p, v)` replaces the text field only when `p`
is the text-slot path 'text'; the path '' is handed to a metadata rebind
at the root path, which fails rather than replacing text; any other path
performs a structural update at that dotted/indexed path inside
`metadata`, leaving the text unchanged and creating intermediate
containers as needed. -/
theorem c2_set_amended :
    (∀ (m : Message) (s : String),
      m.set [Key.key "text"] (.str s) = .ok (m.withText s))
    ∧ (∀ (m : Message) (v : PValue),
      m.set (strKey "") v = .error "the root path cannot be rebound")
    ∧ (∀ (m : Message) (p : KeyPath) (v : PValue) (m2 : Message),
      p ≠ [Key.key "text"] → m.set p v = .ok m2 →
        m2.text = m.text ∧ pupdate p m.metadata v = .ok m2.metadata)
    ∧ (∀ (m : Message) (k1 k2 : String) (v d : PValue),
      m.metadata = .dict [] → v.isMissing = false → v.isRef = false →
      ∃ m2, m.set [Key.key k1, Key.key k2] v = .ok m2
        ∧ m2.get [Key.key k1, Key.key k2] d = .val v) := by
  refine ⟨?_, ?_, ?_, ?_⟩
  · intro m s
    simp [Message.set]
  · intro m v
    simp [Message.set, strKey, pupdate]
  · intro m p v m2 hp h
    have he := set_ok_elim m p v m2 hp h
    exact ⟨he.2.1, he.1⟩
  · intro m k1 k2 v d hmd hm hv
    refine ⟨m.withMetadata (.dict [(k1, .dict [(k2, v)])]), ?_, ?_⟩
    · have hp : ([Key.key k1, Key.key k2] : KeyPath) ≠ [Key.key "text"] := by simp
      simp [Message.set, hp, pupdate, hmd, entriesGet, entriesSet, hm]
    · have h0 : ([Key.key k1, Key.key k2] : KeyPath) ≠ [] := by simp
      have h1 : ([Key.key k1, Key.key k2] : KeyPath) ≠ [Key.key "text"] := by simp
      simp [Message.get, h0, h1, psymGet, entriesGet, pderef_of_not_ref v hv]

/-- Witness of the amended C2 at concrete inputs: setting text replaces
text, setting the root path fails, a metadata set leaves text unchanged,
and a two-level set on empty metadata creates the intermediate
dictionary. -/
theorem c2_set_amended_inst :
    ((Message.mk .base "foo" "" (.dict []) [] Option.none).set [Key.key "text"] (.str "bar")
        = .ok ((Message.mk .base "foo" "" (.dict []) [] Option.none).withText "bar"))
    ∧ ((Message.mk .base "foo" "" (.dict []) [] Option.none).set (strKey "") (.int 1)
        = .error "the root path cannot be rebound")
    ∧ (∃ m2, (Message.mk .base "foo" "" (.dict []) [] Option.none).set
          [Key.key "a", Key.key "b"] (.int 7) = .ok m2
        ∧ m2.get [Key.key "a", Key.key "b"] (.int 0) = .val (.int 7)) := by
  refine ⟨c2_set_amended.1 _ "bar", c2_set_amended.2.1 _ (.int 1), ?_⟩
  exact c2_set_amended.2.2.2 (Message.mk .base "foo" "" (.dict []) [] Option.none)
    "a" "b" (.int 7) (.int 0) rfl rfl rfl

/-!
Claim C4: path duality, deletion and silent no-op of `set`/`get`.
-/

/-- Claim C4: for metadata paths p (not the root path and not the text
slot), a successful `set(p, v)` with a plain value v makes `get(p)`
return v; a successful `set(p, MISSING)` deletes the entry so that
`get(p, default)` returns the default; and a no-op set whose value equals
the value already present succeeds silently, leaving the message
unchanged. -/
theorem c4_path_duality_deletion_noop :
    (∀ (m : Message) (p : KeyPath) (v d : PValue) (m2 : Message),
      p ≠ [] → p ≠ [Key.key "text"] → v.isMissing = false → v.isRef = false →
      m.set p v = .ok m2 → m2.get p d = .val v)
    ∧ (∀ (m : Message) (p : KeyPath) (d : PValue) (m2 : Message),
      p ≠ [] → p ≠ [Key.key "text"] → d.isRef = false →
      m.set p .missing = .ok m2 → m2.get p d = .val d)
    ∧ (∀ (m : Message) (p : KeyPath) (v : PValue),
      p ≠ [] → p ≠ [Key.key "text"] → v.isMissing = false →
      psymGet p m.metadata = some v → m.set p v = .ok m) := by
  refine ⟨?_, ?_, ?_⟩
  · intro m p v d m2 h0 h1 hm hr hset
    have hup := (set_ok_elim m p v m2 h1 hset).1
    have hg := pupdate_psymGet p m.metadata v m2.metadata hup
    rw [hm] at hg
    simp at hg
    simp [Message.get, h0, h1, hg, pderef_of_not_ref v hr]
  · intro m p d m2 h0 h1 hr hset
    have hup := (set_ok_elim m p .missing m2 h1 hset).1
    have hg := pupdate_psymGet p m.metadata .missing m2.metadata hup
    simp [PValue.isMissing] at hg
    simp [Message.get, h0, h1, hg, pderef_of_not_ref d hr]
  · intro m p v h0 h1 hm hget
    have hup := pupdate_noop p m.metadata v h0 hget hm
    simp [Message.set, h1, hup, withMetadata_self]

/-- Witness of C4 at concrete inputs: set-then-get returns the value
through a nested path, deletion makes the default visible, and the no-op
set succeeds returning the unchanged message. -/
theorem c4_path_duality_deletion_noop_inst :
    ((Message.mk .base "t" "" (.dict [("x", .dict [("k", .list [.int 0, .int 1])])]) []
        Option.none).withMetadata (.dict [("x", .dict [("k", .list [.int 5, .int 1])])])).get
        [Key.key "x", Key.key "k", Key.idx 0] (.int 9) = .val (.int 5)
    ∧ ((Message.mk .base "t" "" (.dict [("y", .int 2)]) [] Option.none).withMetadata
        (.dict [])).get [Key.key "y"] (.int 9) = .val (.int 9)
    ∧ (Message.mk .base "t" "" (.dict [("y", .int 2)]) [] Option.none).set
        [Key.key "y"] (.int 2)
        = .ok (Message.mk .base "t" "" (.dict [("y", .int 2)]) [] Option.none) := by
  refine ⟨?_, ?_, ?_⟩
  · exact c4_path_duality_deletion_noop.1
      (Message.mk .base "t" "" (.dict [("x", .dict [("k", .list [.int 0, .int 1])])]) []
        Option.none)
      [Key.key "x", Key.key "k", Key.idx 0] (.int 5) (.int 9) _
      (by simp) (by simp) rfl rfl rfl
  · exact c4_path_duality_deletion_noop.2.1
      (Message.mk .base "t" "" (.dict [("y", .int 2)]) [] Option.none)
      [Key.key "y"] (.int 9) _ (by simp) (by simp) rfl rfl
  · exact c4_path_duality_deletion_noop.2.2
      (Message.mk .base "t" "" (.dict [("y", .int 2)]) [] Option.none)
      [Key.key "y"] (.int 2) (by simp) (by simp) rfl rfl

/-!
Claim C5: source-chain ordering.
-/

/-- Claim C5: on a chain root0 -> m1 -> m2 -> m3 linked via source,
`trace()` returns the chain in chronological oldest-first order, `root`
is the ancestor without a source, and `last(tag)` returns the nearest
message carrying the tag (m1 when only m1 carries it) or none when no
message in the chain carries it. -/
theorem c5_chain_ordering :
    ∀ (root0 m1 m2 m3 : Message) (t : String),
    root0.source = Option.none → m1.source = some root0 →
    m2.source = some m1 → m3.source = some m2 →
    (m3.trace Option.none = [root0, m1, m2, m3]
     ∧ m3.root = root0
     ∧ root0.source = Option.none
     ∧ (t ∈ m1.tags → t ∉ m2.tags → t ∉ m3.tags → m3.last t = some m1)
     ∧ (t ∉ root0.tags → t ∉ m1.tags → t ∉ m2.tags → t ∉ m3.tags →
        m3.last t = Option.none)) := by
  intro root0 m1 m2 m3 t h0 h1 h2 h3
  cases root0 with | mk c0 t0 s0 md0 g0 src0 =>
  cases m1 with | mk ca ta sa mda ga srca =>
  cases m2 with | mk cb tb sb mdb gb srcb =>
  cases m3 with | mk cc tc sc mdc gc srcc =>
  simp only [source_mk] at h0 h1 h2 h3
  subst h0 h1 h2 h3
  refine ⟨?_, ?_, rfl, ?_, ?_⟩
  · simp [Message.trace, Message.traceUp]
  · simp [Message.root]
  · intro ha hb hc
    simp only [tags_mk] at ha hb hc
    simp [Message.last, ha, hb, hc]
  · intro h0 ha hb hc
    simp only [tags_mk] at h0 ha hb hc
    simp [Message.last, h0, ha, hb, hc]

/-- Witness of C5 on a concrete four-message chain with the tag carried
only by the second message. -/
theorem c5_chain_ordering_inst :
    ((Message.mk .base "3" "" (.dict []) [] (some (Message.mk .base "2" "" (.dict []) []
      (some (Message.mk .base "1" "" (.dict []) ["t"] (some (Message.mk .base "r" ""
      (.dict []) [] Option.none))))))).trace Option.none).map Message.text
        = ["r", "1", "2", "3"]
    ∧ (Message.mk .base "3" "" (.dict []) [] (some (Message.mk .base "2" "" (.dict []) []
      (some (Message.mk .base "1" "" (.dict []) ["t"] (some (Message.mk .base "r" ""
      (.dict []) [] Option.none))))))).root
        = Message.mk .base "r" "" (.dict []) [] Option.none
    ∧ (Message.mk .base "3" "" (.dict []) [] (some (Message.mk .base "2" "" (.dict []) []
      (some (Message.mk .base "1" "" (.dict []) ["t"] (some (Message.mk .base "r" ""
      (.dict []) [] Option.none))))))).last "t"
        = some (Message.mk .base "1" "" (.dict []) ["t"] (some (Message.mk .base "r" ""
      (.dict []) [] Option.none)))
    ∧ (Message.mk .base "3" "" (.dict []) [] (some (Message.mk .base "2" "" (.dict []) []
      (some (Message.mk .base "1" "" (.dict []) ["t"] (some (Message.mk .base "r" ""
      (.dict []) [] Option.none))))))).last "z" = Option.none := by
  have h := c5_chain_ordering
    (Message.mk .base "r" "" (.dict []) [] Option.none)
    (Message.mk .base "1" "" (.dict []) ["t"] (some (Message.mk .base "r" "" (.dict [])
      [] Option.none)))
    (Message.mk .base "2" "" (.dict []) [] (some (Message.mk .base "1" "" (.dict [])
      ["t"] (some (Message.mk .base "r" "" (.dict []) [] Option.none)))))
    (Message.mk .base "3" "" (.dict []) [] (some (Message.mk .base "2" "" (.dict []) []
      (some (Message.mk .base "1" "" (.dict []) ["t"] (some (Message.mk .base "r" ""
      (.dict []) [] Option.none)))))))
    "t" rfl rfl rfl rfl
  have h2 := c5_chain_ordering
    (Message.mk .base "r" "" (.dict []) [] Option.none)
    (Message.mk .base "1" "" (.dict []) ["t"] (some (Message.mk .base "r" "" (.dict [])
      [] Option.none)))
    (Message.mk .base "2" "" (.dict []) [] (some (Message.mk .base "1" "" (.dict [])
      ["t"] (some (Message.mk .base "r" "" (.dict []) [] Option.none)))))
    (Message.mk .base "3" "" (.dict []) [] (some (Message.mk .base "2" "" (.dict []) []
      (some (Message.mk .base "1" "" (.dict []) ["t"] (some (Message.mk .base "r" ""
      (.dict []) [] Option.none)))))))
    "z" rfl rfl rfl rfl
  refine ⟨by rw [h.1]; rfl, h.2.1, ?_, ?_⟩
  · exact h.2.2.2.1 (by decide) (by decide) (by decide)
  · exact h2.2.2.2.2 (by decide) (by decide) (by decide) (by decide)

/-!
Claim C6: update-scope nesting.
-/

lemma kpLookup_insert_self (d : List (KeyPath × FieldUpdate)) (p : KeyPath)
    (u : FieldUpdate) : kpLookup (kpInsert d p u) p = some u := by
  induction d with
  | nil => simp [kpInsert, kpLookup]
  | cons hd tl ih =>
    obtain ⟨k, w⟩ := hd
    by_cases h : k = p <;> simp [kpInsert, kpLookup, h, ih]

lemma kpLookup_insert_ne (d : List (KeyPath × FieldUpdate)) (p q : KeyPath)
    (u : FieldUpdate) (h : q ≠ p) : kpLookup (kpInsert d p u) q = kpLookup d q := by
  induction d with
  | nil => simp [kpInsert, kpLookup, Ne.symm h]
  | cons hd tl ih =>
    obtain ⟨k, w⟩ := hd
    by_cases hk : k = p
    · subst hk
      simp [kpInsert, kpLookup, Ne.symm h]
    · simp [kpInsert, kpLookup, hk, ih]

/-- Claim C6: `update_scope` swaps in fresh empty collections on entry
and, on every exit path including an error raised in the body, merges the
scope's updates into the stashed updates by key (later wins) and appends
its errors; in the nested scenario, B's pre-merge updates hold only y,
A's view after closing B holds x and y, and after closing A the ambient
state has gained both updates and the error. -/
theorem c6_update_scope_nesting :
    ∀ (st : TrackState) (px py : KeyPath) (ux uy : FieldUpdate) (e : String),
    px ≠ py →
    ((nestedScopeScenario st px py ux uy e).1.updates = [(py, uy)]
      ∧ (nestedScopeScenario st px py ux uy e).1.errors = [e])
    ∧ ((nestedScopeScenario st px py ux uy e).2.1.updates = [(px, ux), (py, uy)]
      ∧ (nestedScopeScenario st px py ux uy e).2.1.errors = [e])
    ∧ (kpLookup (nestedScopeScenario st px py ux uy e).2.2.updates px = some ux
      ∧ kpLookup (nestedScopeScenario st px py ux uy e).2.2.updates py = some uy
      ∧ (nestedScopeScenario st px py ux uy e).2.2.errors = st.errors ++ [e]) := by
  intro st px py ux uy e hne
  refine ⟨⟨rfl, rfl⟩, ⟨?_, rfl⟩, ?_, ?_, rfl⟩
  · simp [nestedScopeScenario, TrackState.update_scope, recordChange, recordError,
      kpUpdate, kpInsert, hne]
  · simp [nestedScopeScenario, TrackState.update_scope, recordChange, recordError,
      kpUpdate, kpInsert, hne]
    rw [kpLookup_insert_ne _ _ _ _ hne, kpLookup_insert_self]
  · simp [nestedScopeScenario, TrackState.update_scope, recordChange, recordError,
      kpUpdate, kpInsert, hne]
    rw [kpLookup_insert_self]

/-- Witness of C6 at concrete paths x and y. -/
theorem c6_update_scope_nesting_inst :
    ((nestedScopeScenario (TrackState.mk [] []) [Key.key "x"] [Key.key "y"]
        (FieldUpdate.mk (.int 0) (.int 1)) (FieldUpdate.mk (.int 2) (.int 3))
        "boom").1.updates = [([Key.key "y"], FieldUpdate.mk (.int 2) (.int 3))])
    ∧ ((nestedScopeScenario (TrackState.mk [] []) [Key.key "x"] [Key.key "y"]
        (FieldUpdate.mk (.int 0) (.int 1)) (FieldUpdate.mk (.int 2) (.int 3))
        "boom").2.1.updates
      = [([Key.key "x"], FieldUpdate.mk (.int 0) (.int 1)),
         ([Key.key "y"], FieldUpdate.mk (.int 2) (.int 3))])
    ∧ kpLookup (nestedScopeScenario (TrackState.mk [] []) [Key.key "x"] [Key.key "y"]
        (FieldUpdate.mk (.int 0) (.int 1)) (FieldUpdate.mk (.int 2) (.int 3))
        "boom").2.2.updates [Key.key "x"] = some (FieldUpdate.mk (.int 0) (.int 1)) := by
  have h := c6_update_scope_nesting (TrackState.mk [] []) [Key.key "x"] [Key.key "y"]
    (FieldUpdate.mk (.int 0) (.int 1)) (FieldUpdate.mk (.int 2) (.int 3)) "boom"
    (by simp)
  exact ⟨h.1.1, h.2.1.1, h.2.2.1⟩

/-!
Claim C7: tag append is idempotent and excluded from update tracking.
-/

/-- Claim C7: `tag(t)` appends t to the tags only when absent (duplicates
suppressed), adds no entry to the current update scope's updates, and
leaves text, sender and metadata unchanged. -/
theorem c7_tag_frame :
    ∀ (m : Message) (st : TrackState) (t : String),
    (m.tag st t).2 = st
    ∧ (m.tag st t).1.text = m.text
    ∧ (m.tag st t).1.sender = m.sender
    ∧ (m.tag st t).1.metadata = m.metadata
    ∧ (m.tag st t).1.tags = (if t ∈ m.tags then m.tags else m.tags ++ [t])
    ∧ t ∈ (m.tag st t).1.tags
    ∧ (t ∈ m.tags → (m.tag st t).1 = m) := by
  intro m st t
  cases m with | mk c tx sn md tg src =>
  by_cases ht : t ∈ tg <;>
    simp [Message.tag, Message.appendTag, Message.withTags, ht]

/-- Witness of C7: tagging a message that lacks the tag appends it and
leaves the tracking state untouched; tagging a message that has it
already returns the message unchanged. -/
theorem c7_tag_frame_inst :
    ((Message.mk .base "t" "s" (.dict []) [] Option.none).tag (TrackState.mk [] [])
        "lm-input").2 = TrackState.mk [] []
    ∧ ((Message.mk .base "t" "s" (.dict []) [] Option.none).tag (TrackState.mk [] [])
        "lm-input").1.tags = ["lm-input"]
    ∧ ((Message.mk .base "t" "s" (.dict []) ["lm-input"] Option.none).tag
        (TrackState.mk [] []) "lm-input").1
      = Message.mk .base "t" "s" (.dict []) ["lm-input"] Option.none := by
  have h1 := c7_tag_frame (Message.mk .base "t" "s" (.dict []) [] Option.none)
    (TrackState.mk [] []) "lm-input"
  have h2 := c7_tag_frame (Message.mk .base "t" "s" (.dict []) ["lm-input"] Option.none)
    (TrackState.mk [] []) "lm-input"
  refine ⟨h1.1, ?_, h2.2.2.2.2.2.2 (by decide)⟩
  rw [h1.2.2.2.2.1]
  decide

/-!
Claim C8: the equality and hashing contract.
-/

lemma isinstance_of_self (c : MsgClass) : isinstance_of c c = true := by
  cases c <;> simp [isinstance_of]

/-- Claim C8: a message equals a plain string iff its text equals the
string; it equals a same-class message iff text, sender and metadata all
match; role variants with equal text are not equal across classes
(UserMessage "hi" vs AIMessage "hi"); and hashing depends on the text
alone. -/
theorem c8_equality_hash_contract :
    (∀ (m : Message) (s : String), m.pyEq (.str s) ↔ m.text = s)
    ∧ (∀ (m o : Message), m.cls = o.cls →
        (m.pyEq (.msg o) ↔ (m.text = o.text ∧ m.sender = o.sender
          ∧ m.metadata = o.metadata)))
    ∧ (∀ (t : String) (md1 md2 : PValue),
        ¬ (UserMessage t md1).pyEq (.msg (AIMessage t md2)))
    ∧ (∀ (m o : Message), m.text = o.text → m.pyHash = o.pyHash) := by
  refine ⟨?_, ?_, ?_, ?_⟩
  · intro m s
    exact Iff.rfl
  · intro m o h
    constructor
    · intro hp
      exact hp.2
    · intro hp
      exact ⟨by rw [h]; exact isinstance_of_self o.cls, hp⟩
  · intro t md1 md2 hp
    have hin := hp.1
    simp [UserMessage, AIMessage, isinstance_of] at hin
  · intro m o h
    simp [Message.pyHash, h]

/-- Witness of C8 at concrete messages: string equality, same-class
equality, cross-class inequality and text-only hashing. -/
theorem c8_equality_hash_contract_inst :
    (UserMessage "hi" (.dict [])).pyEq (.str "hi")
    ∧ (AIMessage "hi" (.dict [])).pyEq (.msg (AIMessage "hi" (.dict [])))
    ∧ ¬ (UserMessage "hi" (.dict [])).pyEq (.msg (AIMessage "hi" (.dict [])))
    ∧ (Message.mk .user "hi" "A" (.dict []) [] Option.none).pyHash
      = (Message.mk .ai "hi" "B" (.int 1) [] Option.none).pyHash := by
  refine ⟨?_, ?_, ?_, ?_⟩
  · exact (c8_equality_hash_contract.1 (UserMessage "hi" (.dict [])) "hi").mpr rfl
  · exact (c8_equality_hash_contract.2.1 (AIMessage "hi" (.dict []))
      (AIMessage "hi" (.dict [])) rfl).mpr ⟨rfl, rfl, rfl⟩
  · exact c8_equality_hash_contract.2.2.1 "hi" (.dict []) (.dict [])
  · exact c8_equality_hash_contract.2.2.2 _ _ rfl

/-!
Find/scan lemmas for the chunker.
-/

lemma stringMkData (s : String) : String.mk s.data = s := rfl

lemma hasSub_false_iff (l pat : List Char) :
    hasSub l pat = false ↔ findSub l pat 0 = Option.none := by
  rw [hasSub]
  cases findSub l pat 0 <;> simp

lemma findSubAux_shift : ∀ (rem pat : List Char) (i : Nat),
    findSubAux rem pat i = (findSubAux rem pat 0).map (fun r => r + i) := by
  intro rem
  induction rem with
  | nil =>
    intro pat i
    by_cases h : pat.isPrefixOf ([] : List Char) <;> simp [findSubAux, h]
  | cons c tl ih =>
    intro pat i
    by_cases h : pat.isPrefixOf (c :: tl)
    · simp [findSubAux, h]
    · simp only [findSubAux, h, if_false, Bool.false_eq_true]
      rw [ih pat (i + 1), ih pat 1]
      cases findSubAux tl pat 0 with
      | none => simp
      | some r => simp; omega

lemma findSubAux_none_of : ∀ (rem pat : List Char) (i : Nat),
    (∀ j, pat.isPrefixOf (rem.drop j) = false) →
    findSubAux rem pat i = Option.none := by
  intro rem
  induction rem with
  | nil =>
    intro pat i h
    have h0 := h 0
    simp at h0
    simp [findSubAux, h0]
  | cons c tl ih =>
    intro pat i h
    have h0 := h 0
    simp only [List.drop_zero] at h0
    simp only [findSubAux, h0, if_false, Bool.false_eq_true]
    exact ih pat (i + 1) (fun j => by have := h (j + 1); simpa using this)

lemma findSubAux_at (pat : List Char) (hpat : pat ≠ []) :
    ∀ (rem : List Char) (a i : Nat),
    pat.isPrefixOf (rem.drop a) = true →
    (∀ j, j < a → pat.isPrefixOf (rem.drop j) = false) →
    findSubAux rem pat i = some (i + a) := by
  intro rem
  induction rem with
  | nil =>
    intro a i hocc hmin
    simp at hocc
    exact absurd hocc hpat
  | cons c tl ih =>
    intro a i hocc hmin
    cases a with
    | zero =>
      simp only [List.drop_zero] at hocc
      simp [findSubAux, hocc]
    | succ a2 =>
      have h0 := hmin 0 (Nat.succ_pos a2)
      simp only [List.drop_zero] at h0
      simp only [findSubAux, h0, if_false, Bool.false_eq_true]
      have := ih a2 (i + 1) (by simpa using hocc)
        (fun j hj => by have := hmin (j + 1) (by omega); simpa using this)
      rw [this]
      congr 1
      omega

/-!
Claim C9: graceful degradation of the chunker.
-/

/-- Claim C9: `chunk()` never fails on malformed input.  When the text
holds no start delimiter at all, the whole text is appended trimmed (and
an empty trimmed segment is omitted entirely).  When the first start
delimiter has no matching end delimiter anywhere after it, the remaining
text from the current chunk start — here the whole text — is appended
untrimmed as a single final chunk and scanning stops, even if further
start delimiters follow. -/
theorem c9_chunk_graceful_degradation :
    (∀ (m : Message), hasSub m.text.data refStartL = false →
      m.chunk = textChunk (stripList m.text.data))
    ∧ (∀ (m : Message) (pre rest : List Char),
      m.text.data = pre ++ refStartL ++ rest →
      findSub m.text.data refStartL 0 = some pre.length →
      hasSub rest refEndL = false →
      m.chunk = [Chunk.text m.text]) := by
  constructor
  · intro m h
    have hnone := (hasSub_false_iff _ _).mp h
    by_cases hl : m.text.data.length = 0
    · have hnil : m.text.data = [] := List.length_eq_zero.mp hl
      rw [Message.chunk, hnil]
      simp [chunkLoop, textChunk, stripList]
    · have hpos : 0 < m.text.data.length := Nat.pos_of_ne_zero hl
      have hpos2 : 0 < m.text.length := hpos
      rw [Message.chunk]
      simp [chunkLoop, hpos, hpos2, hnone]
  · intro m pre rest htext hfind hnone
    have hlenpos : 0 < m.text.data.length := by
      rw [htext]
      simp [refStartL]
    have hdrop : m.text.data.drop (pre.length + 2) = rest := by
      rw [htext, show pre.length + 2 = (pre ++ refStartL).length by simp [refStartL]]
      exact List.drop_left _ _
    have hend : findSub m.text.data refEndL (pre.length + 2) = Option.none := by
      rw [findSub, hdrop, findSubAux_shift]
      have : findSub rest refEndL 0 = Option.none := (hasSub_false_iff _ _).mp hnone
      rw [findSub] at this
      simp only [List.drop_zero] at this
      rw [this]
      rfl
    have hne : m.text.data ≠ [] := by
      intro hcon
      rw [hcon] at hlenpos
      simp at hlenpos
    have hlenpos2 : 0 < m.text.length := hlenpos
    rw [Message.chunk]
    simp [chunkLoop, hlenpos, hlenpos2, hfind, hend, textChunk, hne, stringMkData]

/-- Witness of C9: a text without delimiters chunks to its trimmed self,
and a text whose start delimiter is never closed is returned whole and
untrimmed, scanning stopping despite a second start delimiter. -/
theorem c9_chunk_graceful_degradation_inst :
    (Message.mk .base " ab " "" (.dict []) [] Option.none).chunk
      = [Chunk.text "ab"]
    ∧ (Message.mk .base " x\x7b\x7by\x7b\x7bz" "" (.dict []) [] Option.none).chunk
      = [Chunk.text " x\x7b\x7by\x7b\x7bz"] := by
  constructor
  · have h := c9_chunk_graceful_degradation.1
      (Message.mk .base " ab " "" (.dict []) [] Option.none) (by decide)
    rw [h]
    decide
  · exact c9_chunk_graceful_degradation.2
      (Message.mk .base " x\x7b\x7by\x7b\x7bz" "" (.dict []) [] Option.none)
      [' ', 'x'] ['y', '\x7b', '\x7b', 'z'] (by decide) (by decide) (by decide)

/-!
Claim C10: equality is not symmetric across the role hierarchy.
-/

/-- Claim C10: a base-class message m and a role-variant message u with
identical text, sender and metadata satisfy m == u (u is an instance of
the base class, so the field comparison applies) while u == m is false (m
is not an instance of the variant class). -/
theorem c10_equality_asymmetry :
    ∀ (t s : String) (md : PValue) (tg1 tg2 : List String)
      (src1 src2 : Option Message),
    (Message.mk .base t s md tg1 src1).pyEq (.msg (Message.mk .user t s md tg2 src2))
    ∧ ¬ (Message.mk .user t s md tg2 src2).pyEq
        (.msg (Message.mk .base t s md tg1 src1)) := by
  intro t s md tg1 tg2 src1 src2
  constructor
  · exact ⟨by simp [isinstance_of], rfl, rfl, rfl⟩
  · intro hp
    have hin := hp.1
    simp [isinstance_of] at hin

/-!
Decimal rendering: correctness and injectivity of the synthetic obj names.
-/

lemma dval_digitChar (n : Nat) (h : n < 10) : dval (digitChar n) = n := by
  interval_cases n <;> decide

lemma valOf_append_digit (l : List Char) (c : Char) :
    valOf (l ++ [c]) = valOf l * 10 + dval c := by
  simp [valOf, List.foldl_append]

lemma valOf_natDigits : ∀ (fuel n : Nat), n < fuel → valOf (natDigits fuel n) = n := by
  intro fuel
  induction fuel with
  | zero => intro n h; omega
  | succ f ih =>
    intro n h
    by_cases h10 : n < 10
    · simp [natDigits, h10, valOf, dval_digitChar n h10]
    · have hdiv : n / 10 < n := Nat.div_lt_self (by omega) (by norm_num)
      simp only [natDigits, h10, if_false]
      rw [valOf_append_digit, ih (n / 10) (by omega),
        dval_digitChar (n % 10) (Nat.mod_lt _ (by norm_num))]
      omega

lemma natDigits_inj (n1 n2 : Nat)
    (h : natDigits (n1 + 1) n1 = natDigits (n2 + 1) n2) : n1 = n2 := by
  have h1 := valOf_natDigits (n1 + 1) n1 (by omega)
  have h2 := valOf_natDigits (n2 + 1) n2 (by omega)
  rw [← h1, ← h2, h]

lemma objName_inj (a b : Nat) (h : objName a = objName b) : a = b := by
  have hd := congrArg String.data h
  rw [objName, objName] at hd
  simp only [objNameL] at hd
  simp at hd
  exact natDigits_inj a b hd

lemma digitChar_props (n : Nat) :
    digitChar n ≠ '\x7b' ∧ digitChar n ≠ '\x7d'
      ∧ isSpaceChar (digitChar n) = false ∧ 48 ≤ (digitChar n).toNat := by
  rcases n with _|_|_|_|_|_|_|_|_|m <;> simp [digitChar, isSpaceChar]

lemma natDigits_chars : ∀ (fuel n : Nat) (c : Char), c ∈ natDigits fuel n →
    c ≠ '\x7b' ∧ c ≠ '\x7d' ∧ isSpaceChar c = false := by
  intro fuel
  induction fuel with
  | zero => intro n c hc; simp [natDigits] at hc
  | succ f ih =>
    intro n c hc
    by_cases h10 : n < 10
    · simp [natDigits, h10] at hc
      subst hc
      exact ⟨(digitChar_props n).1, (digitChar_props n).2.1, (digitChar_props n).2.2.1⟩
    · simp [natDigits, h10] at hc
      rcases hc with hc | hc
      · exact ih (n / 10) c hc
      · subst hc
        exact ⟨(digitChar_props (n % 10)).1, (digitChar_props (n % 10)).2.1,
          (digitChar_props (n % 10)).2.2.1⟩

lemma natDigits_ne_nil (n : Nat) : natDigits (n + 1) n ≠ [] := by
  by_cases h10 : n < 10 <;> simp [natDigits, h10]

lemma objNameL_chars (k : Nat) (c : Char) (hc : c ∈ objNameL k) :
    c ≠ '\x7b' ∧ c ≠ '\x7d' ∧ isSpaceChar c = false := by
  rw [objNameL] at hc
  simp at hc
  rcases hc with hc | hc | hc | hc
  · subst hc; refine ⟨by decide, by decide, by decide⟩
  · subst hc; refine ⟨by decide, by decide, by decide⟩
  · subst hc; refine ⟨by decide, by decide, by decide⟩
  · exact natDigits_chars (k + 1) k c hc

/-!
Whitespace stripping: algebra of stripL (dropWhile) and stripRList.
-/

lemma dropWhile_head_false (p : Char → Bool) :
    ∀ (l : List Char) (c : Char), (l.dropWhile p).head? = some c → p c = false := by
  intro l
  induction l with
  | nil => intro c h; simp at h
  | cons x tl ih =>
    intro c h
    rw [List.dropWhile_cons] at h
    by_cases hp : p x
    · rw [if_pos hp] at h
      exact ih c h
    · rw [if_neg hp] at h
      simp at h
      subst h
      simpa using hp

lemma stripRList_eq_nil_iff (l : List Char) :
    stripRList l = [] ↔ ∀ c ∈ l, isSpaceChar c = true := by
  rw [stripRList]
  constructor
  · intro h c hc
    have : l.reverse.dropWhile isSpaceChar = [] := by
      cases hrev : l.reverse.dropWhile isSpaceChar with
      | nil => rfl
      | cons a b => rw [hrev] at h; simp at h
    exact (List.dropWhile_eq_nil_iff.mp this) c (by simpa using hc)
  · intro h
    have : l.reverse.dropWhile isSpaceChar = [] :=
      List.dropWhile_eq_nil_iff.mpr (fun x hx => h x (by simpa using hx))
    simp [this]

lemma stripRList_append_ne (a b : List Char) (h : stripRList b ≠ []) :
    stripRList (a ++ b) = a ++ stripRList b := by
  rw [stripRList, List.reverse_append, List.dropWhile_append]
  have hne : (b.reverse.dropWhile isSpaceChar).isEmpty = false := by
    cases hrev : b.reverse.dropWhile isSpaceChar with
    | nil => exact absurd (by simp [stripRList, hrev]) h
    | cons x tl => rfl
  rw [if_neg (by simp [hne])]
  simp [stripRList]

lemma stripRList_append_nil (a b : List Char) (h : stripRList b = []) :
    stripRList (a ++ b) = stripRList a := by
  rw [stripRList, List.reverse_append, List.dropWhile_append]
  have hb : b.reverse.dropWhile isSpaceChar = [] := by
    have := (stripRList_eq_nil_iff b).mp h
    exact List.dropWhile_eq_nil_iff.mpr (fun x hx => this x (by simpa using hx))
  rw [hb]
  simp [stripRList]

lemma stripRList_pre (l : List Char) : stripRList l <+: l := by
  have h : (l.reverse.dropWhile isSpaceChar).reverse <+: l.reverse.reverse :=
    List.reverse_prefix.mpr (List.dropWhile_suffix isSpaceChar)
  simpa [stripRList] using h

lemma stripList_eq_stripR (l : List Char) :
    stripList l = stripRList (l.dropWhile isSpaceChar) := rfl

lemma stripList_cons_ws (c : Char) (l : List Char) (h : isSpaceChar c = true) :
    stripList (c :: l) = stripList l := by
  rw [stripList_eq_stripR, stripList_eq_stripR, List.dropWhile_cons, if_pos h]

lemma stripList_append_ws (l : List Char) (c : Char) (h : isSpaceChar c = true) :
    stripList (l ++ [c]) = stripList l := by
  rw [stripList_eq_stripR, stripList_eq_stripR, List.dropWhile_append]
  by_cases he : (l.dropWhile isSpaceChar).isEmpty
  · rw [if_pos he]
    have : l.dropWhile isSpaceChar = [] := by
      cases hd : l.dropWhile isSpaceChar with
      | nil => rfl
      | cons x tl => rw [hd] at he; simp at he
    rw [this]
    simp [stripRList, List.dropWhile, h]
  · rw [if_neg he]
    exact stripRList_append_nil _ _ (by simp [stripRList, List.dropWhile, h])

lemma stripList_eq_nil_iff (l : List Char) :
    stripList l = [] ↔ ∀ c ∈ l, isSpaceChar c = true := by
  rw [stripList_eq_stripR, stripRList_eq_nil_iff]
  constructor
  · intro h c hc
    rw [← List.takeWhile_append_dropWhile isSpaceChar l] at hc
    rcases List.mem_append.mp hc with hc | hc
    · exact List.mem_takeWhile_imp hc
    · exact h c hc
  · intro h c hc
    exact h c ((List.dropWhile_suffix isSpaceChar).mem hc)

lemma dw_idem (p : Char → Bool) (l : List Char) :
    (l.dropWhile p).dropWhile p = l.dropWhile p := by
  cases hd : l.dropWhile p with
  | nil => rfl
  | cons x tl =>
    have hx : p x = false := dropWhile_head_false p l x (by rw [hd]; rfl)
    rw [List.dropWhile_cons, if_neg (by simp [hx])]

lemma stripRList_singleton (c : Char) :
    stripRList [c] = if isSpaceChar c then [] else [c] := by
  by_cases h : isSpaceChar c <;> simp [stripRList, List.dropWhile, h]

lemma stripRList_cons_ne (c : Char) (tl : List Char) (h : stripRList tl ≠ []) :
    stripRList (c :: tl) = c :: stripRList tl := by
  have := stripRList_append_ne [c] tl h
  simpa using this

lemma stripRList_cons_nil (c : Char) (tl : List Char) (h : stripRList tl = []) :
    stripRList (c :: tl) = stripRList [c] := by
  have := stripRList_append_nil [c] tl h
  simpa using this

lemma stripRList_idem (l : List Char) : stripRList (stripRList l) = stripRList l := by
  rw [stripRList, stripRList, List.reverse_reverse, dw_idem]

lemma stripL_stripR_comm (l : List Char) :
    (stripRList l).dropWhile isSpaceChar = stripRList (l.dropWhile isSpaceChar) := by
  induction l with
  | nil => rfl
  | cons c tl ih =>
    by_cases hws : isSpaceChar c
    · by_cases hr : stripRList tl = []
      · rw [stripRList_cons_nil c tl hr, stripRList_singleton, if_pos hws]
        rw [List.dropWhile_cons, if_pos hws, ← ih, hr]
      · rw [stripRList_cons_ne c tl hr, List.dropWhile_cons, if_pos hws,
          List.dropWhile_cons, if_pos hws, ih]
    · by_cases hr : stripRList tl = []
      · rw [stripRList_cons_nil c tl hr, stripRList_singleton, if_neg hws]
        rw [List.dropWhile_cons, if_neg hws, List.dropWhile_cons, if_neg hws]
        rw [stripRList_cons_nil c tl hr, stripRList_singleton, if_neg hws]
      · rw [stripRList_cons_ne c tl hr, List.dropWhile_cons, if_neg hws,
          List.dropWhile_cons, if_neg hws, stripRList_cons_ne c tl hr]

lemma stripList_stripR (l : List Char) :
    stripList (stripRList l) = stripList l := by
  rw [stripList_eq_stripR, stripList_eq_stripR, stripL_stripR_comm, stripRList_idem]

lemma stripList_stripL (l : List Char) :
    stripList (l.dropWhile isSpaceChar) = stripList l := by
  rw [stripList_eq_stripR, dw_idem]
  rfl

lemma stripList_idem (l : List Char) : stripList (stripList l) = stripList l := by
  conv_lhs => rw [show stripList l = stripRList (l.dropWhile isSpaceChar) from rfl]
  rw [stripList_stripR, stripList_stripL]

lemma stripRList_ne_nil_of_strip (l : List Char) (h : stripList l ≠ []) :
    stripRList l ≠ [] := by
  intro hcon
  exact h ((stripList_eq_nil_iff l).mpr ((stripRList_eq_nil_iff l).mp hcon))

lemma stripL_ne_nil_of_strip (l : List Char) (h : stripList l ≠ []) :
    l.dropWhile isSpaceChar ≠ [] := by
  intro hcon
  refine h ((stripList_eq_nil_iff l).mpr ?_)
  intro c hc
  rw [← List.takeWhile_append_dropWhile isSpaceChar l] at hc
  rcases List.mem_append.mp hc with hc | hc
  · exact List.mem_takeWhile_imp hc
  · rw [hcon] at hc; simp at hc

lemma stripRList_eq_self_of_getLast (l : List Char) (c : Char)
    (hl : l.getLast? = some c) (hc : isSpaceChar c = false) : stripRList l = l := by
  rw [stripRList]
  have hh : l.reverse.head? = some c := by
    rw [← List.getLast?_eq_head?_reverse]
    exact hl
  cases hrev : l.reverse with
  | nil => simp [hrev] at hh
  | cons x tl =>
    rw [hrev] at hh
    simp at hh
    subst hh
    rw [List.dropWhile_cons, if_neg (by simp [hc]), ← hrev, List.reverse_reverse]

/-!
Occurrence reasoning for two-character delimiters.
-/

lemma prefix2_iff (c d : Char) (l : List Char) :
    ([c, d] : List Char).isPrefixOf l = true ↔ (l[0]? = some c ∧ l[1]? = some d) := by
  cases l with
  | nil => simp [List.isPrefixOf]
  | cons x tl =>
    cases tl with
    | nil => simp [List.isPrefixOf]
    | cons y tl2 =>
      simp [List.isPrefixOf]
      constructor
      · intro ⟨h1, h2⟩; exact ⟨h1.symm, h2.symm⟩
      · intro ⟨h1, h2⟩; exact ⟨h1.symm, h2.symm⟩

lemma occ2_iff (c d : Char) (l : List Char) (j : Nat) :
    ([c, d] : List Char).isPrefixOf (l.drop j) = true
      ↔ (l[j]? = some c ∧ l[j + 1]? = some d) := by
  rw [prefix2_iff]
  rw [List.getElem?_drop, List.getElem?_drop]
  simp

lemma no2_of_no_char (c : Char) (l : List Char) (h : ∀ x ∈ l, x ≠ c) :
    ∀ j, ([c, c] : List Char).isPrefixOf (l.drop j) = false := by
  intro j
  cases hb : ([c, c] : List Char).isPrefixOf (l.drop j) with
  | false => rfl
  | true =>
    have hocc := (occ2_iff c c l j).mp hb
    exact absurd rfl (h c (List.getElem?_mem hocc.1))

lemma no2_append (c : Char) (a b : List Char)
    (ha : ∀ j, ([c, c] : List Char).isPrefixOf (a.drop j) = false)
    (hb : ∀ j, ([c, c] : List Char).isPrefixOf (b.drop j) = false)
    (hj : ∀ x, a.getLast? = some x → x ≠ c) :
    ∀ j, ([c, c] : List Char).isPrefixOf ((a ++ b).drop j) = false := by
  intro j
  cases hx : ([c, c] : List Char).isPrefixOf ((a ++ b).drop j) with
  | false => rfl
  | true =>
  exfalso
  obtain ⟨h1, h2⟩ := (occ2_iff c c (a ++ b) j).mp hx
  by_cases hj1 : j + 1 < a.length
  · have e1 : a[j]? = some c := by
      rw [List.getElem?_append_left (by omega)] at h1; exact h1
    have e2 : a[j + 1]? = some c := by
      rw [List.getElem?_append_left hj1] at h2; exact h2
    exact absurd ((occ2_iff c c a j).mpr ⟨e1, e2⟩) (by simp [ha j])
  · by_cases hj2 : j < a.length
    · have hje : j + 1 = a.length := by omega
      have e1 : a[j]? = some c := by
        rw [List.getElem?_append_left hj2] at h1; exact h1
      have hlast : a.getLast? = some c := by
        rw [List.getLast?_eq_getElem?]
        rw [show a.length - 1 = j by omega]
        exact e1
      exact hj c hlast rfl
    · have e1 : b[j - a.length]? = some c := by
        rw [List.getElem?_append_right (by omega)] at h1; exact h1
      have e2 : b[j - a.length + 1]? = some c := by
        rw [List.getElem?_append_right (by omega)] at h2
        rw [show j + 1 - a.length = j - a.length + 1 by omega] at h2
        exact h2
      exact absurd ((occ2_iff c c b (j - a.length)).mpr ⟨e1, e2⟩)
        (by simp [hb (j - a.length)])

lemma no2_append_right (c : Char) (a b : List Char)
    (ha : ∀ j, ([c, c] : List Char).isPrefixOf (a.drop j) = false)
    (hb : ∀ j, ([c, c] : List Char).isPrefixOf (b.drop j) = false)
    (hj : ∀ x, b.head? = some x → x ≠ c) :
    ∀ j, ([c, c] : List Char).isPrefixOf ((a ++ b).drop j) = false := by
  intro j
  cases hx : ([c, c] : List Char).isPrefixOf ((a ++ b).drop j) with
  | false => rfl
  | true =>
  exfalso
  obtain ⟨h1, h2⟩ := (occ2_iff c c (a ++ b) j).mp hx
  by_cases hj1 : j + 1 < a.length
  · have e1 : a[j]? = some c := by
      rw [List.getElem?_append_left (by omega)] at h1; exact h1
    have e2 : a[j + 1]? = some c := by
      rw [List.getElem?_append_left hj1] at h2; exact h2
    exact absurd ((occ2_iff c c a j).mpr ⟨e1, e2⟩) (by simp [ha j])
  · by_cases hj2 : j < a.length
    · have hje : j + 1 = a.length := by omega
      have e2 : b[0]? = some c := by
        rw [List.getElem?_append_right (by omega)] at h2
        rw [show j + 1 - a.length = 0 by omega] at h2
        exact h2
      have hhead : b.head? = some c := by
        cases b with
        | nil => simp at e2
        | cons x tl => simp at e2; simp [e2]
      exact hj c hhead rfl
    · have e1 : b[j - a.length]? = some c := by
        rw [List.getElem?_append_right (by omega)] at h1; exact h1
      have e2 : b[j - a.length + 1]? = some c := by
        rw [List.getElem?_append_right (by omega)] at h2
        rw [show j + 1 - a.length = j - a.length + 1 by omega] at h2
        exact h2
      exact absurd ((occ2_iff c c b (j - a.length)).mpr ⟨e1, e2⟩)
        (by simp [hb (j - a.length)])

lemma noOcc_within (pat : List Char) (hpat : pat ≠ []) (x y : List Char)
    (hxy : x <:+: y) (hy : ∀ j, pat.isPrefixOf (y.drop j) = false) :
    ∀ j, pat.isPrefixOf (x.drop j) = false := by
  intro j
  by_cases hjx : j < x.length
  · obtain ⟨a, b, rfl⟩ := hxy
    cases hpre : pat.isPrefixOf (x.drop j) with
    | false => rfl
    | true =>
    exfalso
    have hdrop : (a ++ x ++ b).drop (a.length + j) = x.drop j ++ b := by
      rw [List.append_assoc, ← List.drop_drop]
      rw [List.drop_left]
      exact List.drop_append_of_le_length (by omega)
    have : pat.isPrefixOf ((a ++ x ++ b).drop (a.length + j)) = true := by
      rw [hdrop]
      rw [List.isPrefixOf_iff_prefix] at hpre ⊢
      exact hpre.trans (List.prefix_append _ _)
    rw [hy (a.length + j)] at this
    exact Bool.noConfusion this
  · rw [List.drop_eq_nil_of_le (by omega)]
    cases pat with
    | nil => exact absurd rfl hpat
    | cons p ps => rfl


lemma findSubAux_none_pointwise : ∀ (rem pat : List Char) (i : Nat),
    findSubAux rem pat i = Option.none →
    ∀ j, pat.isPrefixOf (rem.drop j) = false := by
  intro rem
  induction rem with
  | nil =>
    intro pat i h j
    rw [findSubAux] at h
    cases hp : pat.isPrefixOf ([] : List Char) with
    | true => rw [if_pos hp] at h; exact Option.noConfusion h
    | false =>
      rw [List.drop_nil]
      exact hp
  | cons x tl ih =>
    intro pat i h j
    rw [findSubAux] at h
    cases hp : pat.isPrefixOf (x :: tl) with
    | true => rw [if_pos hp] at h; exact Option.noConfusion h
    | false =>
      rw [if_neg (by simp [hp])] at h
      cases j with
      | zero => rw [List.drop_zero]; exact hp
      | succ j2 => exact ih pat (i + 1) h j2

lemma hasSub_false_pointwise (l pat : List Char) (h : hasSub l pat = false) :
    ∀ j, pat.isPrefixOf (l.drop j) = false := by
  have hn := (hasSub_false_iff l pat).mp h
  rw [findSub] at hn
  simp only [List.drop_zero] at hn
  exact findSubAux_none_pointwise l pat 0 hn

lemma hasSub_false_infix (pat : List Char) (hpat : pat ≠ []) (x y : List Char)
    (hxy : x <:+: y) (hy : hasSub y pat = false) : hasSub x pat = false := by
  rw [hasSub_false_iff, findSub]
  simp only [List.drop_zero]
  exact findSubAux_none_of x pat 0
    (noOcc_within pat hpat x y hxy (hasSub_false_pointwise y pat hy))

lemma no_occ_before (c : Char) (A B : List Char)
    (hA : ∀ j, ([c, c] : List Char).isPrefixOf (A.drop j) = false)
    (hAlast : ∀ x, A.getLast? = some x → x ≠ c) :
    ∀ j, j < A.length → ([c, c] : List Char).isPrefixOf ((A ++ B).drop j) = false := by
  intro j hj
  cases hx : ([c, c] : List Char).isPrefixOf ((A ++ B).drop j) with
  | false => rfl
  | true =>
  exfalso
  obtain ⟨h1, h2⟩ := (occ2_iff c c (A ++ B) j).mp hx
  have e1 : A[j]? = some c := by
    rw [List.getElem?_append_left hj] at h1; exact h1
  by_cases hj1 : j + 1 < A.length
  · have e2 : A[j + 1]? = some c := by
      rw [List.getElem?_append_left hj1] at h2; exact h2
    exact absurd ((occ2_iff c c A j).mpr ⟨e1, e2⟩) (by simp [hA j])
  · have hlast : A.getLast? = some c := by
      rw [List.getLast?_eq_getElem?]
      rw [show A.length - 1 = j by omega]
      exact e1
    exact hAlast c hlast rfl

/-- Locate a pattern at an exact offset after `ref_end`. -/
lemma findSub_at (pat : List Char) (hpat : pat ≠ []) (t : List Char)
    (ref_end : Nat) (A B : List Char) (hdrop : t.drop ref_end = A ++ B)
    (hpre : pat.isPrefixOf B = true)
    (hmin : ∀ j, j < A.length → pat.isPrefixOf ((A ++ B).drop j) = false) :
    findSub t pat ref_end = some (ref_end + A.length) := by
  rw [findSub, hdrop]
  exact findSubAux_at pat hpat (A ++ B) A.length ref_end
    (by rw [List.drop_left]; exact hpre) hmin

/-!
Fusion: relating fuseChunks to the tail renderers and the metadata list.
-/

lemma fuse_snd : ∀ (cs : List Chunk) (sep : List Char) (k : Nat) (first : Bool),
    (fuseChunks cs sep k first).snd = mdList cs k := by
  intro cs
  induction cs with
  | nil => intro sep k first; rfl
  | cons ck rest ih =>
    intro sep k first
    cases ck with
    | text s => simp [fuseChunks, mdList, ih]
    | mod m0 => simp [fuseChunks, mdList, ih]

lemma fuse_fst_false : ∀ (cs : List Chunk) (k : Nat),
    (fuseChunks cs sepNL k false).fst = renderRest cs k := by
  intro cs
  induction cs with
  | nil => intro k; rfl
  | cons ck rest ih =>
    intro k
    cases ck with
    | text s => simp [fuseChunks, renderRest, chunkPayload, chunkBump, ih]
    | mod m0 => simp [fuseChunks, renderRest, chunkPayload, chunkBump, ih]

lemma fuse_fst_true_text (s : String) (rest : List Chunk) (k : Nat) :
    (fuseChunks (Chunk.text s :: rest) sepNL k true).fst = s.data ++ renderRest rest k := by
  simp [fuseChunks, fuse_fst_false]

lemma fuse_fst_true_mod (m0 : Modality) (rest : List Chunk) (k : Nat) :
    (fuseChunks (Chunk.mod m0 :: rest) sepNL k true).fst
      = markerL k ++ renderRest rest (k + 1) := by
  simp [fuseChunks, fuse_fst_false]

lemma renderRest_cons (c : Chunk) (rest : List Chunk) (k : Nat) :
    renderRest (c :: rest) k = sepNL ++ renderMods (c :: rest) k := by
  cases c <;> rfl

lemma mdList_get : ∀ (cs : List Chunk) (k j : Nat) (md : Modality),
    (modsOf cs)[j]? = some md →
    entriesGet (mdList cs k) (objName (k + j)) = some (maybe_ref md) := by
  intro cs
  induction cs with
  | nil => intro k j md h; simp [modsOf] at h
  | cons ck rest ih =>
    intro k j md h
    cases ck with
    | text s =>
      rw [modsOf] at h
      rw [mdList]
      exact ih k j md h
    | mod m0 =>
      rw [modsOf] at h
      cases j with
      | zero =>
        simp at h
        subst h
        simp [mdList, entriesGet]
      | succ j2 =>
        simp at h
        rw [mdList, entriesGet]
        rw [if_neg (fun he => absurd (objName_inj _ _ he) (by omega))]
        rw [show k + (j2 + 1) = (k + 1) + j2 by omega]
        exact ih (k + 1) j2 md h

lemma pderef_maybe_ref (md : Modality) : pderef (maybe_ref md) = .modality md := by
  by_cases h : md.owned <;> simp [maybe_ref, h, pderef]

lemma objName_ne_empty (k : Nat) : objName k ≠ "" := by
  intro h
  have := congrArg String.data h
  rw [objName] at this
  simp [objNameL] at this

lemma objName_ne_text (k : Nat) : objName k ≠ "text" := by
  intro h
  have hd := congrArg String.data h
  rw [objName] at hd
  rw [show (String.mk (objNameL k)).data = objNameL k from rfl] at hd
  rw [show ("text" : String).data = ['t', 'e', 'x', 't'] from rfl] at hd
  rw [objNameL] at hd
  simp at hd

/-- The message built by `from_chunks` resolves every synthetic obj name
to its modality object. -/
lemma get_modality_mdList (t s : String) (tg : List String) (cs : List Chunk)
    (j : Nat) (md : Modality) (h : (modsOf cs)[j]? = some md) :
    (Message.mk .base t s (.dict (mdList cs 0)) tg Option.none).get_modality
      (objName j) Option.none true = some md := by
  rw [Message.get_modality]
  have hkey : strKey (objName j) = [Key.key (objName j)] := by
    rw [strKey, if_neg (objName_ne_empty j)]
  rw [hkey]
  have hget : (Message.mk .base t s (.dict (mdList cs 0)) tg Option.none).get
      [Key.key (objName j)] PValue.none = .val (.modality md) := by
    rw [Message.get]
    rw [if_neg (by simp)]
    rw [if_neg (by simp [objName_ne_text j])]
    have := mdList_get cs 0 j md h
    simp at this
    simp [psymGet, this, pderef_maybe_ref]
  rw [hget]

/-!
Right-stripping a rendered tail: the trailing whitespace lives entirely in
the last text chunk, so it can be pushed into a variant chunk list with
the same trims, modalities and side conditions.
-/

lemma strip_ne_nonws_mem (l : List Char) (h : stripList l ≠ []) :
    ∃ c ∈ l, isSpaceChar c = false := by
  by_contra hcon
  push_neg at hcon
  exact h ((stripList_eq_nil_iff l).mpr (fun c hc => by
    have := hcon c hc
    simpa using this))

lemma stripR_ne_of_mem (l : List Char) (c : Char) (hc : c ∈ l)
    (hws : isSpaceChar c = false) : stripRList l ≠ [] := by
  intro hcon
  have := (stripRList_eq_nil_iff l).mp hcon c hc
  rw [this] at hws
  exact Bool.noConfusion hws

lemma chunksOk_text_single (s : String) :
    chunksOk [Chunk.text s] = (chunkTextOk s && true) := rfl

lemma chunksOk_text_text (a b : String) (r : List Chunk) :
    chunksOk (Chunk.text a :: Chunk.text b :: r) = false := rfl

lemma chunksOk_text_mod (s : String) (m : Modality) (r : List Chunk) :
    chunksOk (Chunk.text s :: Chunk.mod m :: r)
      = (chunkTextOk s && chunksOk (Chunk.mod m :: r)) := rfl

lemma chunksOk_mod (m : Modality) (r : List Chunk) :
    chunksOk (Chunk.mod m :: r) = chunksOk r := rfl

lemma chunksOk_text_elim (s : String) (r : List Chunk)
    (h : chunksOk (Chunk.text s :: r) = true) :
    chunkTextOk s = true ∧ chunksOk r = true := by
  cases r with
  | nil =>
    rw [chunksOk_text_single] at h
    exact ⟨(Bool.and_eq_true_iff.mp h).1, rfl⟩
  | cons c2 r2 =>
    cases c2 with
    | text s2 => rw [chunksOk_text_text] at h; exact Bool.noConfusion h
    | mod m2 =>
      rw [chunksOk_text_mod] at h
      exact ⟨(Bool.and_eq_true_iff.mp h).1, (Bool.and_eq_true_iff.mp h).2⟩

lemma chunkTextOk_strip_ne (s : String) (h : chunkTextOk s = true) :
    stripList s.data ≠ [] := by
  rw [chunkTextOk] at h
  have h1 := (Bool.and_eq_true_iff.mp h).1
  intro hcon
  rw [hcon] at h1
  simp at h1

lemma chunkTextOk_no_ref (s : String) (h : chunkTextOk s = true) :
    hasSub s.data refStartL = false := by
  rw [chunkTextOk] at h
  have h2 := (Bool.and_eq_true_iff.mp h).2
  cases hx : hasSub s.data refStartL
  · rfl
  · rw [hx] at h2; exact Bool.noConfusion h2

lemma stripR_render_ne (rest : List Chunk) (k : Nat) (h : chunksOk rest = true)
    (hne : rest ≠ []) : stripRList (renderRest rest k) ≠ [] := by
  cases rest with
  | nil => exact absurd rfl hne
  | cons c r =>
    cases c with
    | mod m0 =>
      refine stripR_ne_of_mem _ '\x7b' ?_ (by decide)
      rw [renderRest, chunkPayload]
      simp [markerL, refStartL]
    | text s =>
      have hok : chunkTextOk s = true := (chunksOk_text_elim s r h).1
      obtain ⟨c0, hc0, hws0⟩ := strip_ne_nonws_mem s.data (chunkTextOk_strip_ne s hok)
      refine stripR_ne_of_mem _ c0 ?_ hws0
      rw [renderRest, chunkPayload]
      simp [hc0]

lemma map_trim_shape_mod (r2 r : List Chunk) (m : Modality) (rest : List Chunk)
    (h : r2.map trimChunk = r.map trimChunk) (hr : r = Chunk.mod m :: rest) :
    ∃ rest2, r2 = Chunk.mod m :: rest2 := by
  subst hr
  cases r2 with
  | nil => simp at h
  | cons c2 t2 =>
    cases c2 with
    | text s2 =>
      simp [trimChunk] at h
    | mod m2 =>
      simp [trimChunk] at h
      exact ⟨t2, by rw [h.1]⟩

lemma chunkTextOk_of_stripR (s : String) (h : chunkTextOk s = true) :
    chunkTextOk (String.mk (stripRList s.data)) = true := by
  rw [chunkTextOk]
  have h1 : stripList (stripRList s.data) = stripList s.data := stripList_stripR s.data
  rw [show (String.mk (stripRList s.data)).data = stripRList s.data from rfl, h1]
  have h2 := chunkTextOk_strip_ne s h
  have h3 : hasSub (stripRList s.data) refStartL = false :=
    hasSub_false_infix refStartL (by decide) _ s.data
      ((stripRList_pre s.data).isInfix) (chunkTextOk_no_ref s h)
  rw [h3]
  simp
  intro hcon
  exact h2 hcon

/-- Right-stripping a rendered non-initial tail equals rendering a variant
tail in which only the final text chunk has lost its trailing whitespace:
trims, modality lists and the side conditions are preserved. -/
lemma stripR_renderRest : ∀ (rest : List Chunk) (k : Nat), chunksOk rest = true →
    ∃ rest2, stripRList (renderRest rest k) = renderRest rest2 k
      ∧ chunksOk rest2 = true
      ∧ modsOf rest2 = modsOf rest
      ∧ rest2.map trimChunk = rest.map trimChunk := by
  intro rest
  induction rest with
  | nil => intro k h; exact ⟨[], rfl, rfl, rfl, rfl⟩
  | cons c r ih =>
    intro k h
    cases hr : r with
    | nil =>
      subst hr
      cases c with
      | mod m0 =>
        refine ⟨[Chunk.mod m0], ?_, rfl, rfl, rfl⟩
        rw [renderRest, chunkPayload, renderRest]
        refine stripRList_eq_self_of_getLast _ '\x7d' ?_ (by decide)
        rw [List.append_nil, markerL, refEndL]
        rw [show refStartL ++ objNameL k ++ ['\x7d', '\x7d']
          = (refStartL ++ objNameL k ++ ['\x7d']) ++ ['\x7d'] by simp]
        rw [show sepNL ++ ((refStartL ++ objNameL k ++ ['\x7d']) ++ ['\x7d'])
          = (sepNL ++ (refStartL ++ objNameL k ++ ['\x7d'])) ++ ['\x7d'] by simp]
        exact List.getLast?_concat _
      | text s =>
        have hok : chunkTextOk s = true := (chunksOk_text_elim s [] h).1
        have hsR : stripRList s.data ≠ [] :=
          stripRList_ne_nil_of_strip s.data (chunkTextOk_strip_ne s hok)
        refine ⟨[Chunk.text (String.mk (stripRList s.data))], ?_, ?_, rfl, ?_⟩
        · rw [renderRest, chunkPayload, renderRest, List.append_nil]
          rw [renderRest, chunkPayload, renderRest, List.append_nil]
          rw [show (String.mk (stripRList s.data)).data = stripRList s.data from rfl]
          rw [show sepNL ++ s.data = sepNL ++ s.data from rfl]
          rw [stripRList_append_ne sepNL s.data hsR]
        · rw [chunksOk_text_single, chunkTextOk_of_stripR s hok]
          rfl
        · simp [trimChunk]
          exact congrArg String.mk (stripList_stripR s.data)
    | cons c2 r2 =>
      subst hr
      have hrne : c2 :: r2 ≠ [] := by simp
      have hokr : chunksOk (c2 :: r2) = true := by
        cases c with
        | mod m0 => rw [chunksOk_mod] at h; exact h
        | text s => exact (chunksOk_text_elim s (c2 :: r2) h).2
      have hinner : stripRList (renderRest (c2 :: r2) (chunkBump c k)) ≠ [] :=
        stripR_render_ne (c2 :: r2) (chunkBump c k) hokr hrne
      obtain ⟨rV, hRV, hokV, hmodsV, htrimV⟩ := ih (chunkBump c k) hokr
      have hshape : stripRList (renderRest (c :: c2 :: r2) k)
          = renderRest (c :: rV) k := by
        rw [renderRest]
        rw [show sepNL ++ chunkPayload c k ++ renderRest (c2 :: r2) (chunkBump c k)
          = (sepNL ++ chunkPayload c k) ++ renderRest (c2 :: r2) (chunkBump c k) by simp]
        rw [stripRList_append_ne _ _ hinner, hRV, renderRest]
      refine ⟨c :: rV, hshape, ?_, ?_, ?_⟩
      · cases c with
        | mod m0 =>
          rw [chunksOk_mod]
          exact hokV
        | text s =>
          have hok : chunkTextOk s = true := (chunksOk_text_elim s (c2 :: r2) h).1
          cases c2 with
          | text s2 =>
            rw [chunksOk_text_text] at h
            exact Bool.noConfusion h
          | mod m2 =>
            obtain ⟨restV, hrestV⟩ := map_trim_shape_mod rV (Chunk.mod m2 :: r2) m2 r2 htrimV rfl
            rw [hrestV, chunksOk_text_mod, hok]
            rw [hrestV] at hokV
            rw [chunksOk_mod] at hokV ⊢
            exact hokV
      · cases c with
        | mod m0 => rw [modsOf, modsOf, hmodsV]
        | text s => rw [modsOf, modsOf, hmodsV]
      · cases c with
        | mod m0 => simp [htrimV]
        | text s => simp [htrimV]

/-!
Utilities for the loop simulation.
-/

lemma refStartL_eq : refStartL = ['\x7b', '\x7b'] := rfl

lemma refEndL_eq : refEndL = ['\x7d', '\x7d'] := rfl

lemma noOcc_nil (pat : List Char) (hpat : pat ≠ []) :
    ∀ j, pat.isPrefixOf (([] : List Char).drop j) = false := by
  intro j
  rw [List.drop_nil]
  cases pat with
  | nil => exact absurd rfl hpat
  | cons a b => rfl

lemma g_noOcc (g : List Char) (hg : g = [] ∨ g = refEndL) :
    ∀ j, refStartL.isPrefixOf (g.drop j) = false := by
  rcases hg with hg | hg <;> subst hg
  · exact noOcc_nil refStartL (by decide)
  · rw [refStartL_eq]
    exact no2_of_no_char '\x7b' refEndL (by decide)

lemma g_getLast (g : List Char) (hg : g = [] ∨ g = refEndL) :
    ∀ x, g.getLast? = some x → x ≠ '\x7b' := by
  rcases hg with hg | hg <;> subst hg
  · intro x hx; simp at hx
  · intro x hx
    rw [refEndL_eq] at hx
    simp [List.getLast?] at hx
    subst hx
    decide

lemma lead_getLast_ne (lead : List Char)
    (h : lead = [] ∨ lead.getLast? = some '\n') :
    ∀ x, lead.getLast? = some x → x ≠ '\x7b' := by
  rcases h with h | h
  · subst h; intro x hx; simp at hx
  · intro x hx
    rw [h] at hx
    simp at hx
    subst hx
    decide

lemma gLead_noOcc (g lead : List Char) (hg : g = [] ∨ g = refEndL)
    (hlead : ∀ j, refStartL.isPrefixOf (lead.drop j) = false) :
    ∀ j, refStartL.isPrefixOf ((g ++ lead).drop j) = false := by
  rw [refStartL_eq] at hlead ⊢
  exact no2_append '\x7b' g lead
    (fun j => by rw [← refStartL_eq]; exact g_noOcc g hg j)
    hlead (g_getLast g hg)

lemma gLead_getLast (g lead : List Char) (hg : g = [] ∨ g = refEndL)
    (hlead : lead = [] ∨ lead.getLast? = some '\n') :
    ∀ x, (g ++ lead).getLast? = some x → x ≠ '\x7b' := by
  intro x hx
  rw [List.getLast?_append] at hx
  rcases hlead with hl | hl
  · subst hl
    simp at hx
    exact g_getLast g hg x hx
  · rw [hl] at hx
    simp at hx
    subst hx
    decide

lemma getLast_mem (l : List Char) (x : Char) (h : l.getLast? = some x) : x ∈ l := by
  rw [List.getLast?_eq_getElem?] at h
  exact List.getElem?_mem h

lemma stripList_eq_self_of (l : List Char)
    (hh : ∀ c, l.head? = some c → isSpaceChar c = false)
    (hl : ∀ c, l.getLast? = some c → isSpaceChar c = false) : stripList l = l := by
  have hdw : l.dropWhile isSpaceChar = l := by
    cases l with
    | nil => rfl
    | cons c tl => rw [List.dropWhile_cons, if_neg (by simp [hh c rfl])]
  rw [stripList_eq_stripR, hdw]
  cases hlast : l.getLast? with
  | none =>
    have hnil : l = [] := by
      cases l with
      | nil => rfl
      | cons c tl => rw [List.getLast?_eq_head?_reverse] at hlast; simp at hlast
    subst hnil
    rfl
  | some c => exact stripRList_eq_self_of_getLast l c hlast (hl c hlast)

lemma stripList_objNameL (k : Nat) : stripList (objNameL k) = objNameL k := by
  refine stripList_eq_self_of _ ?_ ?_
  · intro c hc
    rw [objNameL] at hc
    simp at hc
    subst hc
    decide
  · intro c hc
    exact (objNameL_chars k c (getLast_mem _ c hc)).2.2

lemma drop_of_eq_append (t : List Char) (n : Nat) (A B : List Char)
    (h : t.drop n = A ++ B) : t.drop (n + A.length) = B := by
  rw [← List.drop_drop, h, List.drop_left]

lemma listExtract_of_drop (t : List Char) (n : Nat) (A B : List Char)
    (h : t.drop n = A ++ B) : listExtract t n (n + A.length) = A := by
  rw [listExtract, h, Nat.add_sub_cancel_left, List.take_left]

lemma lt_of_drop_cons (t : List Char) (n : Nat) (rem : List Char)
    (h : t.drop n = rem) (hne : rem ≠ []) : n < t.length := by
  by_contra hcon
  rw [List.drop_eq_nil_of_le (by omega)] at h
  exact hne h.symm

lemma ge_of_drop_nil (t : List Char) (n : Nat) (h : t.drop n = []) :
    t.length ≤ n := by
  by_contra hcon
  have := congrArg List.length h
  rw [List.length_drop] at this
  simp at this
  omega

lemma sep_noOcc : ∀ j, refStartL.isPrefixOf (sepNL.drop j) = false := by
  rw [refStartL_eq]
  exact no2_of_no_char '\x7b' sepNL (by decide)

lemma text_noOcc (s : String) (h : chunkTextOk s = true) :
    ∀ j, refStartL.isPrefixOf (s.data.drop j) = false :=
  hasSub_false_pointwise s.data refStartL (chunkTextOk_no_ref s h)

lemma sepText_noOcc (s : String) (h : chunkTextOk s = true) :
    ∀ j, refStartL.isPrefixOf ((sepNL ++ s.data).drop j) = false := by
  rw [refStartL_eq]
  refine no2_append '\x7b' sepNL s.data ?_ ?_ ?_
  · intro j; rw [← refStartL_eq]; exact sep_noOcc j
  · intro j; rw [← refStartL_eq]; exact text_noOcc s h j
  · intro x hx
    simp [sepNL, List.getLast?] at hx
    subst hx
    decide

lemma sepTextSep_noOcc (s : String) (h : chunkTextOk s = true) :
    ∀ j, refStartL.isPrefixOf ((sepNL ++ s.data ++ sepNL).drop j) = false := by
  rw [refStartL_eq]
  refine no2_append_right '\x7b' (sepNL ++ s.data) sepNL ?_ ?_ ?_
  · intro j; rw [← refStartL_eq]; exact sepText_noOcc s h j
  · intro j; rw [← refStartL_eq]; exact sep_noOcc j
  · intro x hx
    simp [sepNL] at hx
    subst hx
    decide

lemma markerL_ne_nil (k : Nat) : markerL k ++ renderRest rest (k + 1) ≠ [] := by
  simp [markerL, refStartL]

/-- Simulation of the chunking loop over the tail of a fused text.  The
state is described by: a guard `g` (empty at the start, the just-scanned
end delimiter afterwards), a pending text segment `lead` holding no start
delimiter and ending in the separator (when chunks remain), and the
rendering of the remaining chunks `restM`, whose head is a modality.
The loop emits the trimmed pending segment followed by the trimmed
remaining chunks. -/
lemma chunkLoop_sim : ∀ (fuel : Nat) (restM : List Chunk) (k ref_end : Nat)
    (g lead : List Char) (m : Message) (t : List Char) (acc : List Chunk),
    (g = [] ∨ g = refEndL) →
    t.drop ref_end = g ++ lead ++ renderMods restM k →
    (∀ j, refStartL.isPrefixOf (lead.drop j) = false) →
    (restM ≠ [] → (lead = [] ∨ lead.getLast? = some '\n')) →
    chunksOk restM = true →
    (∀ s r, restM ≠ Chunk.text s :: r) →
    (∀ j md, (modsOf restM)[j]? = some md →
        m.get_modality (objName (k + j)) Option.none true = some md) →
    restM.length < fuel →
    chunkLoop m t fuel (ref_end + g.length) ref_end acc
      = acc ++ textChunk (stripList lead) ++ restM.map trimChunk := by
  intro fuel
  induction fuel with
  | zero =>
    intro restM k ref_end g lead m t acc _ _ _ _ _ _ _ hf
    omega
  | succ f ih =>
    intro restM k ref_end g lead m t acc hg ht hlead1 hlead2 hok hhead hres hf
    cases restM with
    | nil =>
      rw [renderMods, List.append_nil] at ht
      by_cases hl : lead = []
      · subst hl
        rw [List.append_nil] at ht
        have hlen := congrArg List.length ht
        rw [List.length_drop] at hlen
        simp only [chunkLoop]
        rw [if_neg (by omega)]
        simp [textChunk, stripList]
      · have hdropcs : t.drop (ref_end + g.length) = lead :=
          drop_of_eq_append t ref_end g lead ht
        have hlt : ref_end + g.length < t.length := lt_of_drop_cons t _ lead hdropcs hl
        have hnone : findSub t refStartL ref_end = Option.none := by
          rw [findSub, ht]
          exact findSubAux_none_of _ _ _ (gLead_noOcc g lead hg hlead1)
        simp only [chunkLoop]
        rw [if_pos hlt, hnone]
        rw [hdropcs]
        simp
    | cons ck rest =>
      cases ck with
      | text s => exact absurd rfl (hhead s rest)
      | mod m0 =>
        rw [renderMods] at ht
        have hBpre : refStartL.isPrefixOf (markerL k ++ renderRest rest (k + 1)) = true := by
          rw [List.isPrefixOf_iff_prefix, markerL]
          rw [List.append_assoc, List.append_assoc]
          exact List.prefix_append _ _
        have hfind1 : findSub t refStartL ref_end
            = some (ref_end + (g ++ lead).length) := by
          refine findSub_at refStartL (by decide) t ref_end (g ++ lead) _ ht hBpre ?_
          intro j hj
          rw [refStartL_eq]
          refine no_occ_before '\x7b' (g ++ lead) _ ?_ ?_ j hj
          · intro j2
            rw [← refStartL_eq]
            exact gLead_noOcc g lead hg hlead1 j2
          · exact gLead_getLast g lead hg (hlead2 (by simp))
        have hdropP : t.drop (ref_end + (g ++ lead).length)
            = markerL k ++ renderRest rest (k + 1) :=
          drop_of_eq_append t ref_end (g ++ lead) _ ht
        have hdropVS : t.drop (ref_end + (g ++ lead).length + 2)
            = objNameL k ++ (refEndL ++ renderRest rest (k + 1)) := by
          have h2 : t.drop (ref_end + (g ++ lead).length)
              = refStartL ++ (objNameL k ++ (refEndL ++ renderRest rest (k + 1))) := by
            rw [hdropP, markerL]
            simp [List.append_assoc]
          have h3 := drop_of_eq_append t _ refStartL _ h2
          exact h3
        have hfind2 : findSub t refEndL (ref_end + (g ++ lead).length + 2)
            = some (ref_end + (g ++ lead).length + 2 + (objNameL k).length) := by
          refine findSub_at refEndL (by decide) t _ (objNameL k) _ hdropVS ?_ ?_
          · rw [List.isPrefixOf_iff_prefix]
            exact List.prefix_append _ _
          · intro j hj
            rw [refEndL_eq]
            refine no_occ_before '\x7d' (objNameL k) _ ?_ ?_ j hj
            · exact no2_of_no_char '\x7d' _ (fun x hx => (objNameL_chars k x hx).2.1)
            · intro x hx
              exact (objNameL_chars k x (getLast_mem _ x hx)).2.1
        have hextractName : listExtract t (ref_end + (g ++ lead).length + 2)
            (ref_end + (g ++ lead).length + 2 + (objNameL k).length) = objNameL k :=
          listExtract_of_drop t _ (objNameL k) _ hdropVS
        have hgm : m.get_modality (String.mk (stripList (objNameL k)))
            Option.none true = some m0 := by
          rw [stripList_objNameL]
          have h0 : (modsOf (Chunk.mod m0 :: rest))[0]? = some m0 := by
            rw [modsOf]
            simp
          have h1 := hres 0 m0 h0
          simpa [objName] using h1
        have hdropCS : t.drop (ref_end + g.length)
            = lead ++ (markerL k ++ renderRest rest (k + 1)) := by
          have h2 : t.drop ref_end
              = g ++ (lead ++ (markerL k ++ renderRest rest (k + 1))) := by
            rw [ht]
            simp [List.append_assoc]
          exact drop_of_eq_append t ref_end g _ h2
        have hlt : ref_end + g.length < t.length :=
          lt_of_drop_cons t _ _ hdropCS (by simp [markerL, refStartL])
        have hextractLead : listExtract t (ref_end + g.length)
            (ref_end + (g ++ lead).length) = lead := by
          have h4 := listExtract_of_drop t (ref_end + g.length) lead _ hdropCS
          rw [show ref_end + (g ++ lead).length = ref_end + g.length + lead.length by
            simp [List.length_append]; omega]
          exact h4
        have hdropRE : t.drop (ref_end + (g ++ lead).length + 2 + (objNameL k).length)
            = refEndL ++ renderRest rest (k + 1) :=
          drop_of_eq_append t _ (objNameL k) _ hdropVS
        simp only [chunkLoop]
        rw [if_pos hlt, hfind1]
        simp only []
        rw [hfind2]
        simp only []
        rw [hextractName, hgm]
        simp only []
        rw [hextractLead]
        rw [show ref_end + (g ++ lead).length + 2 + (objNameL k).length + 2
          = ref_end + (g ++ lead).length + 2 + (objNameL k).length + refEndL.length
          from rfl]
        cases rest with
        | nil =>
          rw [ih [] (k + 1) _ refEndL [] m t _ (Or.inr rfl)
            (by rw [renderMods, hdropRE, renderRest]; simp)
            (noOcc_nil refStartL (by decide))
            (fun hcon => absurd rfl hcon)
            rfl
            (by intro s2 r2; simp)
            (by intro j md hj; rw [modsOf] at hj; simp at hj)
            (by simp at hf ⊢; omega)]
          simp [trimChunk, textChunk, show stripList [] = [] from rfl]
        | cons ck2 rest2 =>
          have hokrest : chunksOk (ck2 :: rest2) = true := by
            rw [chunksOk_mod] at hok
            exact hok
          cases ck2 with
          | text s =>
            obtain ⟨hctOk, hokr2⟩ := chunksOk_text_elim s rest2 hokrest
            cases rest2 with
            | nil =>
              rw [ih [] (k + 1) _ refEndL (sepNL ++ s.data) m t _ (Or.inr rfl)
                (by
                  rw [renderMods]
                  rw [hdropRE, renderRest, chunkPayload, renderRest]
                  simp [List.append_assoc])
                (sepText_noOcc s hctOk)
                (fun hcon => absurd rfl hcon)
                rfl
                (by intro s2 r2; simp)
                (by intro j md hj; rw [modsOf] at hj; simp at hj)
                (by simp at hf ⊢; omega)]
              have hstrip : stripList (sepNL ++ s.data) = stripList s.data := by
                rw [show sepNL ++ s.data = '\n' :: s.data from rfl]
                exact stripList_cons_ws '\n' s.data (by decide)
              rw [hstrip]
              have hne2 : stripList s.data ≠ [] := chunkTextOk_strip_ne s hctOk
              simp [trimChunk, textChunk, hne2]
            | cons ck3 rest3 =>
              have hmodhead : ∃ m2, ck3 = Chunk.mod m2 := by
                cases ck3 with
                | text s3 =>
                  rw [chunksOk_text_text] at hokrest
                  exact Bool.noConfusion hokrest
                | mod m2 => exact ⟨m2, rfl⟩
              obtain ⟨m2, rfl⟩ := hmodhead
              rw [ih (Chunk.mod m2 :: rest3) (k + 1) _ refEndL
                (sepNL ++ s.data ++ sepNL) m t _ (Or.inr rfl)
                (by
                  rw [hdropRE, renderRest, chunkPayload, chunkBump,
                    renderRest_cons (Chunk.mod m2) rest3 (k + 1)]
                  simp [List.append_assoc])
                (sepTextSep_noOcc s hctOk)
                (fun _ => Or.inr (by
                  rw [show sepNL ++ s.data ++ sepNL = (sepNL ++ s.data) ++ ['\n'] from rfl]
                  exact List.getLast?_concat _))
                hokr2
                (by intro s2 r2; simp)
                (by
                  intro j md hj
                  have hj2 : (modsOf (Chunk.mod m0 :: Chunk.text s
                      :: Chunk.mod m2 :: rest3))[j + 1]? = some md := by
                    rw [modsOf, modsOf]
                    simpa using hj
                  have h5 := hres (j + 1) md hj2
                  rw [show k + (j + 1) = k + 1 + j by omega] at h5
                  exact h5)
                (by simp at hf ⊢; omega)]
              have hstrip : stripList (sepNL ++ s.data ++ sepNL)
                  = stripList s.data := by
                rw [show sepNL ++ s.data ++ sepNL = (sepNL ++ s.data) ++ ['\n'] from rfl]
                rw [stripList_append_ws _ '\n' (by decide)]
                rw [show sepNL ++ s.data = '\n' :: s.data from rfl]
                exact stripList_cons_ws '\n' s.data (by decide)
              rw [hstrip]
              have hne2 : stripList s.data ≠ [] := chunkTextOk_strip_ne s hctOk
              simp [trimChunk, textChunk, hne2]
          | mod m1 =>
            rw [ih (Chunk.mod m1 :: rest2) (k + 1) _ refEndL sepNL m t _ (Or.inr rfl)
              (by
                rw [hdropRE, renderRest_cons (Chunk.mod m1) rest2 (k + 1)]
                simp [List.append_assoc])
              sep_noOcc
              (fun _ => Or.inr (by simp [sepNL, List.getLast?]))
              hokrest
              (by intro s2 r2; simp)
              (by
                intro j md hj
                have hj2 : (modsOf (Chunk.mod m0 :: Chunk.mod m1 :: rest2))[j + 1]?
                    = some md := by
                  rw [modsOf]
                  simpa using hj
                have h5 := hres (j + 1) md hj2
                rw [show k + (j + 1) = k + 1 + j by omega] at h5
                exact h5)
              (by simp at hf ⊢; omega)]
            have hstrip : stripList sepNL = [] := by decide
            rw [hstrip]
            simp [trimChunk, textChunk]

/-!
Top-level assembly of the round-trip.
-/

lemma from_chunks_eq (cs : List Chunk) (sep : List Char) :
    Message.from_chunks cs sep = Message.mk .base
      (String.mk (stripList (fuseChunks cs sep 0 true).fst)) ""
      (.dict (fuseChunks cs sep 0 true).snd) [] Option.none := by
  rcases hq : fuseChunks cs sep 0 true with ⟨a, b⟩
  rw [Message.from_chunks, hq]

lemma renderRest_length_ge : ∀ (r : List Chunk) (k : Nat),
    r.length ≤ (renderRest r k).length := by
  intro r
  induction r with
  | nil => intro k; simp [renderRest]
  | cons c rest ih =>
    intro k
    rw [renderRest]
    have := ih (chunkBump c k)
    simp [sepNL]
    omega

lemma renderMods_mod_length (m0 : Modality) (r : List Chunk) (k : Nat) :
    (Chunk.mod m0 :: r).length ≤ (renderMods (Chunk.mod m0 :: r) k).length := by
  show (Chunk.mod m0 :: r).length ≤ (markerL k ++ renderRest r (k + 1)).length
  have h1 := renderRest_length_ge r (k + 1)
  have h2 : 1 ≤ (markerL k).length := by
    rw [markerL, refStartL_eq, refEndL_eq]
    simp only [List.length_append, List.length_cons, List.length_nil]
    omega
  simp only [List.length_cons, List.length_append]
  omega

lemma stripList_within (l : List Char) : stripList l <:+: l := by
  rw [stripList_eq_stripR]
  exact ((stripRList_pre (l.dropWhile isSpaceChar)).isInfix).trans
    ((List.dropWhile_suffix isSpaceChar).isInfix)

lemma strip_noOcc (s : String) (h : chunkTextOk s = true) :
    ∀ j, refStartL.isPrefixOf ((stripList s.data).drop j) = false :=
  noOcc_within refStartL (by decide) _ s.data (stripList_within s.data)
    (text_noOcc s h)

lemma dwText_noOcc (s : String) (h : chunkTextOk s = true) :
    ∀ j, refStartL.isPrefixOf ((s.data.dropWhile isSpaceChar).drop j) = false :=
  noOcc_within refStartL (by decide) _ s.data
    ((List.dropWhile_suffix isSpaceChar).isInfix) (text_noOcc s h)

lemma dwSep_noOcc (s : String) (h : chunkTextOk s = true) :
    ∀ j, refStartL.isPrefixOf
      (((s.data.dropWhile isSpaceChar) ++ sepNL).drop j) = false := by
  rw [refStartL_eq]
  refine no2_append_right '\x7b' _ sepNL ?_ ?_ ?_
  · intro j; rw [← refStartL_eq]; exact dwText_noOcc s h j
  · intro j; rw [← refStartL_eq]; exact sep_noOcc j
  · intro x hx
    simp [sepNL] at hx
    subst hx
    decide

lemma stringData_mk (l : List Char) : (String.mk l).data = l := rfl

/-- Round trip of a single well-formed chunk list, chunking side. -/
lemma chunk_from_chunks (cs : List Chunk) (hok : chunksOk cs = true) :
    (Message.from_chunks cs sepNL).chunk = cs.map trimChunk := by
  rw [from_chunks_eq, fuse_snd]
  cases cs with
  | nil => rfl
  | cons c rest =>
    cases c with
    | text s =>
      obtain ⟨hctOk, hokrest⟩ := chunksOk_text_elim s rest hok
      cases rest with
      | nil =>
        rw [Message.chunk]
        have htext : (fuseChunks [Chunk.text s] sepNL 0 true).fst = s.data := by
          rw [fuse_fst_true_text, renderRest, List.append_nil]
        rw [htext]
        simp only [text_mk, stringData_mk]
        have hsim := chunkLoop_sim ((stripList s.data).length + 1) [] 0 0 []
          (stripList s.data)
          (Message.mk .base (String.mk (stripList s.data)) ""
            (.dict (mdList [Chunk.text s] 0)) [] Option.none)
          (stripList s.data) [] (Or.inl rfl)
          (by rw [renderMods]; simp)
          (strip_noOcc s hctOk)
          (fun hcon => absurd rfl hcon)
          rfl
          (by intro s2 r2; simp)
          (by intro j md hj; simp [modsOf] at hj)
          (by simp)
        simp only [List.nil_append, List.length_nil, Nat.add_zero,
          List.map_nil, List.append_nil] at hsim
        rw [hsim]
        rw [stripList_idem]
        have hne : stripList s.data ≠ [] := chunkTextOk_strip_ne s hctOk
        simp [trimChunk, textChunk, hne]
      | cons c2 rest2 =>
        have hmodhead : ∃ m0, c2 = Chunk.mod m0 := by
          cases c2 with
          | text s2 =>
            rw [chunksOk_text_text] at hok
            exact Bool.noConfusion hok
          | mod m0 => exact ⟨m0, rfl⟩
        obtain ⟨m0, rfl⟩ := hmodhead
        obtain ⟨restV, hRV, hokV, hmodsV, htrimV⟩ :=
          stripR_renderRest (Chunk.mod m0 :: rest2) 0 hokrest
        obtain ⟨restV2, rfl⟩ :=
          map_trim_shape_mod restV (Chunk.mod m0 :: rest2) m0 rest2 htrimV rfl
        have hdw : s.data.dropWhile isSpaceChar ≠ [] :=
          stripL_ne_nil_of_strip s.data (chunkTextOk_strip_ne s hctOk)
        have htext : stripList (fuseChunks (Chunk.text s :: Chunk.mod m0 :: rest2)
            sepNL 0 true).fst
            = (s.data.dropWhile isSpaceChar ++ sepNL)
              ++ renderMods (Chunk.mod m0 :: restV2) 0 := by
          rw [fuse_fst_true_text]
          rw [stripList_eq_stripR, List.dropWhile_append,
            if_neg (by simp [hdw])]
          rw [stripRList_append_ne _ _
            (stripR_render_ne (Chunk.mod m0 :: rest2) 0 hokrest (by simp))]
          rw [hRV, renderRest_cons]
          simp [List.append_assoc]
        rw [Message.chunk, htext]
        simp only [text_mk, stringData_mk]
        have hlenOK : (Chunk.mod m0 :: restV2).length
            < ((s.data.dropWhile isSpaceChar ++ sepNL)
              ++ renderMods (Chunk.mod m0 :: restV2) 0).length + 1 := by
          have := renderMods_mod_length m0 restV2 0
          simp only [List.length_cons] at this
          simp [List.length_append]
          omega
        have hsim := chunkLoop_sim
          (((s.data.dropWhile isSpaceChar ++ sepNL)
            ++ renderMods (Chunk.mod m0 :: restV2) 0).length + 1)
          (Chunk.mod m0 :: restV2) 0 0 []
          (s.data.dropWhile isSpaceChar ++ sepNL)
          (Message.mk .base (String.mk ((s.data.dropWhile isSpaceChar ++ sepNL)
            ++ renderMods (Chunk.mod m0 :: restV2) 0)) ""
            (.dict (mdList (Chunk.text s :: Chunk.mod m0 :: rest2) 0)) [] Option.none)
          ((s.data.dropWhile isSpaceChar ++ sepNL)
            ++ renderMods (Chunk.mod m0 :: restV2) 0)
          [] (Or.inl rfl)
          (by simp)
          (dwSep_noOcc s hctOk)
          (fun _ => Or.inr (by
            rw [show s.data.dropWhile isSpaceChar ++ sepNL
              = s.data.dropWhile isSpaceChar ++ ['\n'] from rfl]
            exact List.getLast?_concat _))
          hokV
          (by intro s2 r2; simp)
          (by
            intro j md hj
            have hmods : (modsOf (Chunk.text s :: Chunk.mod m0 :: rest2))[j]?
                = some md := by
              rw [modsOf]
              rw [show modsOf (Chunk.mod m0 :: rest2)
                = modsOf (Chunk.mod m0 :: restV2) from hmodsV.symm]
              exact hj
            simp only [Nat.zero_add]
            exact get_modality_mdList _ "" []
              (Chunk.text s :: Chunk.mod m0 :: rest2) j md hmods)
          hlenOK
        simp only [List.nil_append, List.length_nil, Nat.add_zero] at hsim
        rw [hsim]
        have hstrip : stripList (s.data.dropWhile isSpaceChar ++ sepNL)
            = stripList s.data := by
          rw [show s.data.dropWhile isSpaceChar ++ sepNL
            = s.data.dropWhile isSpaceChar ++ ['\n'] from rfl]
          rw [stripList_append_ws _ '\n' (by decide)]
          exact stripList_stripL s.data
        rw [hstrip]
        have hne : stripList s.data ≠ [] := chunkTextOk_strip_ne s hctOk
        simp [trimChunk, textChunk, hne, htrimV]
    | mod m0 =>
      have hokrest : chunksOk rest = true := by
        rw [chunksOk_mod] at hok
        exact hok
      obtain ⟨restV, hRV, hokV, hmodsV, htrimV⟩ := stripR_renderRest rest 1 hokrest
      have htext : stripList (fuseChunks (Chunk.mod m0 :: rest) sepNL 0 true).fst
          = [] ++ renderMods (Chunk.mod m0 :: restV) 0 := by
        rw [fuse_fst_true_mod]
        have hconsM : markerL 0 ++ renderRest rest 1
            = '\x7b' :: ('\x7b' :: (objNameL 0 ++ (refEndL ++ renderRest rest 1))) := by
          rw [markerL, refStartL_eq]
          simp
        have hdwT : (markerL 0 ++ renderRest rest 1).dropWhile isSpaceChar
            = markerL 0 ++ renderRest rest 1 := by
          rw [hconsM, List.dropWhile_cons, if_neg (by decide)]
        rw [stripList_eq_stripR, hdwT]
        cases hrest : rest with
        | nil =>
          subst hrest
          have h0 := hRV
          rw [show renderRest ([] : List Chunk) 1 = [] from rfl] at h0
          rw [show stripRList ([] : List Char) = [] from rfl] at h0
          have hrv : restV = [] := by
            cases hrVc : restV with
            | nil => rfl
            | cons cV rV =>
              rw [hrVc, renderRest_cons] at h0
              simp [sepNL] at h0
          subst hrv
          rw [show renderRest ([] : List Chunk) 1 = [] from rfl, List.append_nil]
          have hgl : (markerL 0).getLast? = some '\x7d' := by
            rw [markerL, refEndL_eq]
            rw [show refStartL ++ objNameL 0 ++ ['\x7d', '\x7d']
              = (refStartL ++ objNameL 0 ++ ['\x7d']) ++ ['\x7d'] by simp]
            exact List.getLast?_concat _
          rw [stripRList_eq_self_of_getLast _ '\x7d' hgl (by decide)]
          rfl
        | cons cr rr =>
          subst hrest
          rw [stripRList_append_ne _ _
            (stripR_render_ne (cr :: rr) 1 hokrest (by simp))]
          rw [hRV]
          rfl
      rw [Message.chunk, htext]
      simp only [List.nil_append, text_mk, stringData_mk]
      have hlenOK : (Chunk.mod m0 :: restV).length
          < (renderMods (Chunk.mod m0 :: restV) 0).length + 1 := by
        have := renderMods_mod_length m0 restV 0
        omega
      have hsim := chunkLoop_sim
        ((renderMods (Chunk.mod m0 :: restV) 0).length + 1)
        (Chunk.mod m0 :: restV) 0 0 [] []
        (Message.mk .base (String.mk (renderMods (Chunk.mod m0 :: restV) 0)) ""
          (.dict (mdList (Chunk.mod m0 :: rest) 0)) [] Option.none)
        (renderMods (Chunk.mod m0 :: restV) 0)
        [] (Or.inl rfl)
        (by simp)
        (noOcc_nil refStartL (by decide))
        (fun _ => Or.inl rfl)
        (by rw [chunksOk_mod]; exact hokV)
        (by intro s2 r2; simp)
        (by
          intro j md hj
          have hmods : (modsOf (Chunk.mod m0 :: rest))[j]? = some md := by
            rw [modsOf]
            rw [modsOf] at hj
            rw [show modsOf rest = modsOf restV from hmodsV.symm]
            exact hj
          simp only [Nat.zero_add]
          exact get_modality_mdList _ "" [] (Chunk.mod m0 :: rest) j md hmods)
        hlenOK
      simp only [List.nil_append, List.length_nil, Nat.add_zero] at hsim
      rw [hsim]
      simp [trimChunk, textChunk, show stripList [] = [] from rfl, htrimV]

/-- Claim C3 counterexample: the chunk list `["a", "b"]` satisfies the
claim's stated precondition (no adjacent empty-text chunks) and its text
chunks carry no surrounding whitespace, yet fusing and re-chunking merges
the two text chunks into the single chunk `"a\nb"`, so the round trip
fails even up to whitespace trimming of text chunks. -/
theorem c3_roundtrip_counterexample :
    (Message.from_chunks [Chunk.text "a", Chunk.text "b"] sepNL).chunk
      = [Chunk.text "a\nb"]
    ∧ (Message.from_chunks [Chunk.text "a", Chunk.text "b"] sepNL).chunk
      ≠ [Chunk.text "a", Chunk.text "b"].map trimChunk := by
  constructor
  · decide
  · decide

/-- Claim C3 (amended): for every finite ordered chunk sequence with no
two adjacent text chunks, in which every text chunk keeps a non-empty
body after whitespace trimming and contains no start delimiter,
`Message.from_chunks` followed by `Message.chunk` returns the same
sequence with every text chunk whitespace-trimmed; and `from_chunks`
names the modality objects `obj0`, `obj1`, ... in chunk order and records
each one under its name in the new message's metadata, from where
`get_modality` resolves the name back to the object. -/
theorem c3_roundtrip_amended :
    (∀ cs : List Chunk, chunksOk cs = true →
      (Message.from_chunks cs sepNL).chunk = cs.map trimChunk)
    ∧ (∀ (cs : List Chunk) (j : Nat) (md : Modality),
        (modsOf cs)[j]? = some md →
        (Message.from_chunks cs sepNL).get_modality (objName j)
          Option.none true = some md) := by
  constructor
  · exact chunk_from_chunks
  · intro cs j md h
    rw [from_chunks_eq, fuse_snd]
    exact get_modality_mdList _ "" [] cs j md h

/-- Concrete instance of the amended C3 round trip: a text chunk, two
modality objects and a final text chunk survive the round trip with both
text chunks trimmed, and `obj1` resolves to the second modality object. -/
theorem c3_roundtrip_amended_inst :
    (Message.from_chunks [Chunk.text " a ", Chunk.mod ⟨5, false⟩,
        Chunk.mod ⟨7, true⟩, Chunk.text " b "] sepNL).chunk
      = [Chunk.text " a ", Chunk.mod ⟨5, false⟩, Chunk.mod ⟨7, true⟩,
          Chunk.text " b "].map trimChunk
    ∧ (Message.from_chunks [Chunk.text " a ", Chunk.mod ⟨5, false⟩,
        Chunk.mod ⟨7, true⟩, Chunk.text " b "] sepNL).get_modality
        (objName 1) Option.none true = some ⟨7, true⟩ := by
  constructor
  · exact c3_roundtrip_amended.1
      [Chunk.text " a ", Chunk.mod ⟨5, false⟩, Chunk.mod ⟨7, true⟩,
        Chunk.text " b "] (by decide)
  · exact c3_roundtrip_amended.2
      [Chunk.text " a ", Chunk.mod ⟨5, false⟩, Chunk.mod ⟨7, true⟩,
        Chunk.text " b "] 1 ⟨7, true⟩ (by decide)

end Langfun
